import Mathlib

/-!
# Verification of the checkers-MCTS repository

A shallow embedding of `checkers.py` and `search.py` (imzoc/checkers-MCTS),
together with theorems settling the specification claims about it.

Conventions of the embedding:
* A board cell holds a piece code (`0` empty, `1`/`2` men, `3`/`4` kings),
  modelled as `Nat`.
* The grid is a row-major `List (List Nat)`; `board[y][x]` in Python becomes
  `getCell b x y`.
* Coordinates inside moves are `Int` (Python ints; move vectors are negative).
* Python `assert` failures in `CheckersBoard.make_move` are surfaced as
  reported errors, per the specification's instructions for reimplementation;
  validation happens before any write, mirroring the source order.
-/

set_option autoImplicit false

namespace CheckersMCTS

/-- A grid of piece codes, row major: `board[y][x]` is `(b.getD y).getD x`. -/
abbrev Grid := List (List Nat)

/-- One leg of a turn: `((start_x, start_y), (end_x, end_y))`. -/
abbrev Move := (Int × Int) × (Int × Int)

/-- A turn: a list of legs (single move, or a chain of jumps). -/
abbrev Turn := List Move

/-- Python `self.dim`: the number of rows of the grid (fixed at construction). -/
def dimG (b : Grid) : Nat := b.length

/-- Reading `board[y][x]` (in-bounds accesses only arise in the embedded code paths;
out-of-bounds reads default to `0`). -/
def getCell (b : Grid) (x y : Int) : Nat :=
  (b.getD y.toNat []).getD x.toNat 0

/-- Writing `board[y][x] = v`. -/
def setCell (b : Grid) (x y : Int) (v : Nat) : Grid :=
  b.set y.toNat ((b.getD y.toNat []).set x.toNat v)

/-- The grid is square: every row has length equal to the number of rows. -/
def IsSquare (b : Grid) : Prop := ∀ r ∈ b, r.length = b.length

instance (b : Grid) : Decidable (IsSquare b) := List.decidableBAll _ b

/-- Number of non-empty cells in one row. -/
def rowCount (r : List Nat) : Nat := r.countP (fun c => decide (c ≠ 0))

/-- Number of non-empty cells of the whole grid (used as the recursion
measure for jump-chain discovery: each jump removes exactly one piece). -/
def countPieces (b : Grid) : Nat := (b.map rowCount).sum

/-! ### `CheckersBoard.make_move`

The writes performed by `CheckersBoard.make_move` (the code after the two
`assert` statements): pick the piece up, put it down, clear the jumped cell
for a jump leg, and promote a man reaching the far rank. -/

/-- The mutation part of `CheckersBoard.make_move` (everything after the
asserts, in source order). -/
def makeMoveU (b : Grid) (m : Move) : Grid :=
  let x := m.1.1
  let y := m.1.2
  let nx := m.2.1
  let ny := m.2.2
  let piece := getCell b x y
  let isJump := (x - nx).natAbs = 2
  let jx := (x + nx) / 2
  let jy := (y + ny) / 2
  let b1 := setCell b x y 0
  let b2 := setCell b1 nx ny piece
  let b3 := if isJump then setCell b2 jx jy 0 else b2
  let b4 := if piece = 1 ∧ ny = (dimG b : Int) - 1 then setCell b3 nx ny 3 else b3
  if piece = 2 ∧ ny = 0 then setCell b4 nx ny 4 else b4

/-- Error kinds surfaced by the embedding (the spec's `InvalidMoveError`
reasons and `InvalidPlayerId`). -/
inductive CheckersErr where
  | invalidMoveNoJumpedPiece
  | invalidMoveDestinationOccupied
  | invalidPlayerId
deriving DecidableEq, Repr

/-- The source `CheckersBoard.make_move` with its two asserts converted to
reported errors, in source order: for a jump (`abs(x - nx) == 2`) the
intervening cell must be non-empty, and the destination must be empty.
All validation happens before any write; on an error the grid is returned
unchanged. -/
def makeMoveIP (b : Grid) (m : Move) : Grid × Option CheckersErr :=
  let x := m.1.1
  let nx := m.2.1
  let ny := m.2.2
  let isJump := (x - nx).natAbs = 2
  let jx := (x + nx) / 2
  let jy := (m.1.2 + ny) / 2
  if isJump ∧ getCell b jx jy = 0 then
    (b, some CheckersErr.invalidMoveNoJumpedPiece)
  else if getCell b nx ny ≠ 0 then
    (b, some CheckersErr.invalidMoveDestinationOccupied)
  else
    (makeMoveU b m, none)

/-- An `Except` view of `makeMoveIP`, used to chain legs of a turn. -/
def makeMoveE (b : Grid) (m : Move) : Except CheckersErr Grid :=
  match makeMoveIP b m with
  | (_, some e) => Except.error e
  | (b', none) => Except.ok b'

/-! ### `CheckersGame.get_jump_moves`

The recursive jump-chain discovery.  The Python recursion terminates because
every jump removes a piece; the embedding is driven by a fuel equal to the
number of pieces on the board, which decreases by exactly one per jump
(`countPieces_makeMoveU_jump`), so the wrapper `getJumpMoves` computes the
very same recursion. -/

/-- The four jump vectors, in source order. -/
def jumpDirs : List (Int × Int) := [(2, 2), (2, -2), (-2, 2), (-2, -2)]

/-- The `enemy_pieces` list as derived from the moving piece's code. -/
def enemiesOf (piece : Nat) : List Nat :=
  if piece = 1 ∨ piece = 3 then [2, 4]
  else if piece = 2 ∨ piece = 4 then [1, 3] else []

/-- The body of the per-direction loop of `get_jump_moves`: direction filter
for men, bounds check, empty destination, enemy on the jumped cell; then the
speculative application and the recursion, parameterised by `rec`. -/
def jumpStep (rec : Grid → Int → Int → List Turn) (b : Grid) (x y : Int)
    (piece : Nat) (d : Int × Int) : List Turn :=
  if (piece = 1 ∧ d.2 < 0) ∨ (piece = 2 ∧ d.2 > 0) then []
  else if 0 ≤ x + d.1 ∧ x + d.1 < (dimG b : Int) ∧
      0 ≤ y + d.2 ∧ y + d.2 < (dimG b : Int) then
    if getCell b (x + d.1) (y + d.2) ≠ 0 then []
    else if getCell b (x + d.1 / 2) (y + d.2 / 2) ∈ enemiesOf piece then
      if rec (makeMoveU b ((x, y), (x + d.1, y + d.2))) (x + d.1) (y + d.2)
          = [] then
        [[((x, y), (x + d.1, y + d.2))]]
      else
        (rec (makeMoveU b ((x, y), (x + d.1, y + d.2))) (x + d.1)
            (y + d.2)).map
          (fun s => ((x, y), (x + d.1, y + d.2)) :: s)
    else []
  else []

/-- One unfolding of `get_jump_moves`, parameterised by the recursive call. -/
def jumpBody (rec : Grid → Int → Int → List Turn) (b : Grid) (x y : Int) :
    List Turn :=
  if getCell b x y = 0 then []
  else jumpDirs.flatMap (jumpStep rec b x y (getCell b x y))

/-- Fueled version of `get_jump_moves`. -/
def getJumpMovesF : Nat → Grid → Int → Int → List Turn
  | 0, _, _, _ => []
  | fuel + 1, b, x, y => jumpBody (getJumpMovesF fuel) b x y

/-- Source `CheckersGame.get_jump_moves(x, y, board)`: the fuel `countPieces b`
is exactly reproduced along each recursive call. -/
def getJumpMoves (b : Grid) (x y : Int) : List Turn :=
  getJumpMovesF (countPieces b) b x y

/-- Specification-side predicate: `(nx, ny)` is a legal jump destination for
the piece at `(x, y)` (one of the four `±2` diagonal vectors; destination in
bounds and empty; the intermediate cell holds an enemy piece). -/
def LegalJumpLeg (b : Grid) (x y nx ny : Int) : Prop :=
  ∃ d ∈ jumpDirs,
    nx = x + d.1 ∧ ny = y + d.2 ∧
    ¬((getCell b x y = 1 ∧ d.2 < 0) ∨ (getCell b x y = 2 ∧ d.2 > 0)) ∧
    (0 ≤ nx ∧ nx < (dimG b : Int) ∧ 0 ≤ ny ∧ ny < (dimG b : Int)) ∧
    getCell b nx ny = 0 ∧
    getCell b (x + d.1 / 2) (y + d.2 / 2) ∈ enemiesOf (getCell b x y)

instance (b : Grid) (x y nx ny : Int) : Decidable (LegalJumpLeg b x y nx ny) :=
  List.decidableBEx _ jumpDirs

/-- Specification-side predicate: some jump is available from `(x, y)`. -/
def canJump (b : Grid) (x y : Int) : Prop :=
  ∃ d ∈ jumpDirs, LegalJumpLeg b x y (x + d.1) (y + d.2)

instance (b : Grid) (x y : Int) : Decidable (canJump b x y) :=
  List.decidableBEx _ jumpDirs

/-- Specification-side predicate: the legs chain (each leg starts where the
previous one ended) and each leg is a legal jump on the board as modified by
the preceding legs. -/
def ChainFrom (b : Grid) (x y : Int) : List Move → Prop
  | [] => True
  | (s, e) :: rest =>
      s = (x, y) ∧ LegalJumpLeg b x y e.1 e.2 ∧
      ChainFrom (makeMoveU b (s, e)) e.1 e.2 rest

instance instDecChainFrom :
    ∀ (b : Grid) (x y : Int) (t : List Move), Decidable (ChainFrom b x y t)
  | _, _, _, [] => Decidable.isTrue trivial
  | b, _x, _y, (s, e) :: rest =>
      have : Decidable (ChainFrom (makeMoveU b (s, e)) e.1 e.2 rest) :=
        instDecChainFrom _ _ _ rest
      inferInstanceAs (Decidable (_ ∧ _ ∧ _))

/-- Applying all legs of a turn in order. -/
def applyTurn (b : Grid) (t : List Move) : Grid := t.foldl makeMoveU b

/-- The landing square of a turn started at `p`. -/
def turnEnd (p : Int × Int) : List Move → Int × Int
  | [] => p
  | (_, e) :: rest => turnEnd e rest

/-! ### `CheckersGame.get_single_moves` -/

/-- The four single-step vectors, in source order. -/
def singleDirs : List (Int × Int) := [(1, 1), (1, -1), (-1, 1), (-1, -1)]

/-- Source `CheckersGame.get_single_moves(x, y)`: one singleton turn per legal
simple diagonal step. -/
def getSingleMoves (b : Grid) (x y : Int) : List Turn :=
  singleDirs.flatMap (fun d =>
    if (getCell b x y = 1 ∧ d.2 < 0) ∨ (getCell b x y = 2 ∧ d.2 > 0) then []
    else if 0 ≤ x + d.1 ∧ x + d.1 < (dimG b : Int) ∧
        0 ≤ y + d.2 ∧ y + d.2 < (dimG b : Int) then
      if getCell b (x + d.1) (y + d.2) ≠ 0 then []
      else [[((x, y), (x + d.1, y + d.2))]]
    else [])

/-! ### `CheckersGame` -/

/-- A game state: a board plus the current player. -/
structure GameState where
  board : Grid
  current_player : Nat
deriving DecidableEq, Repr

/-- Python `if not player: player = self.current_player` — note that the Python
condition treats both `None` and `0` as "no argument". -/
def resolvePlayer (s : GameState) (player : Option Nat) : Nat :=
  match player with
  | none => s.current_player
  | some p => if p = 0 then s.current_player else p

/-- The cell scan order of `get_legal_moves`: `y` outer, `x` inner. -/
def allCoords (dim : Nat) : List (Nat × Nat) :=
  (List.range dim).flatMap (fun y => (List.range dim).map (fun x => (x, y)))

/-- One iteration of the `get_legal_moves` scan: skip cells not owned by the
player; accumulate jump turns; accumulate single turns only while no jump
has been found so far. -/
def legalStep (b : Grid) (p : Nat) (acc : List Turn × List Turn)
    (c : Nat × Nat) : List Turn × List Turn :=
  if getCell b (c.1 : Int) (c.2 : Int) = p
      ∨ getCell b (c.1 : Int) (c.2 : Int) = p + 2 then
    let j := acc.1 ++ getJumpMoves b (c.1 : Int) (c.2 : Int)
    (j, if j = [] then acc.2 ++ getSingleMoves b (c.1 : Int) (c.2 : Int)
        else acc.2)
  else acc

/-- Source `CheckersGame.get_legal_moves(player)`: returns the accumulated jump
turns if any exist, otherwise the accumulated single-step turns. -/
def getLegalMoves (s : GameState) (player : Option Nat) : List Turn :=
  let p := resolvePlayer s player
  let r := (allCoords (dimG s.board)).foldl (legalStep s.board p) ([], [])
  if r.1 = [] then r.2 else r.1

/-- Source `CheckersBoard.__contains__`: whether any cell equals the given code. -/
def hasPiece (b : Grid) (p : Nat) : Bool :=
  b.any (fun r => r.any (fun c => c = p))

/-- Source `CheckersBoard.piece_count`. -/
def pieceCount (b : Grid) (p : Nat) : Nat :=
  (b.map (fun r => r.countP (fun c => decide (c = p)))).sum

/-- Source `CheckersGame.get_winner`, translated clause for clause: player 2 wins if
player 1 has no pieces or no legal moves; then symmetrically for player 1;
otherwise the game is not over. -/
def getWinner (s : GameState) : Option Nat :=
  if ¬(hasPiece s.board 1 = true ∨ hasPiece s.board 3 = true)
      ∨ getLegalMoves s (some 1) = [] then some 2
  else if ¬(hasPiece s.board 2 = true ∨ hasPiece s.board 4 = true)
      ∨ getLegalMoves s (some 2) = [] then some 1
  else none

/-- Source `CheckersGame.is_game_over`. -/
def isGameOver (s : GameState) : Bool := (getWinner s).isSome

/-- Source `CheckersGame.other_player(other_player)`: `None` and `0` both fall back
to the current player (Python falsiness); ids other than 1 and 2 raise. -/
def otherPlayer (s : GameState) (arg : Option Nat) : Except CheckersErr Nat :=
  let p := match arg with
    | none => s.current_player
    | some n => if n = 0 then s.current_player else n
  if p = 1 then Except.ok 2
  else if p = 2 then Except.ok 1
  else Except.error CheckersErr.invalidPlayerId

/-- Source `CheckersGame.make_move(moves)`: apply every leg to the board, then flip
the current player. -/
def gameMakeMove (s : GameState) (legs : List Move) :
    Except CheckersErr GameState := do
  let b ← legs.foldlM makeMoveE s.board
  let p ← otherPlayer s none
  pure { board := b, current_player := p }

/-- Total extension of `other_player` used inside the pure successor of the
search embedding (it agrees with the source on the ids 1 and 2, the only
values arising there; other ids raise in the source). -/
def otherPure (p : Nat) : Nat := if p = 1 then 2 else if p = 2 then 1 else p

/-- Pure view of `CheckersGame.generate_successor(move)` used by the search
agents: deep-copy semantics is value semantics here, the legs are applied in
order and the player flips.  Coincides with `gameMakeMove` whenever the
latter succeeds (`gameMakeMove_ok_eq_succState`). -/
def succState (s : GameState) (t : Turn) : GameState :=
  { board := applyTurn s.board t, current_player := otherPure s.current_player }

/-- Source `CheckersGame.generate_successor(move)` with the error reporting of the
embedding: `None` and the empty turn are both falsy in `if move:`, so the
copy is returned with the player unchanged. -/
def generateSuccessor (s : GameState) (mv : Option Turn) :
    Except CheckersErr GameState :=
  if mv = none ∨ mv = some [] then Except.ok s
  else gameMakeMove s (mv.getD [])

/-! ### Turn-shape predicates (specification side) -/

/-- A turn all of whose legs are `±2` diagonal jumps. -/
def IsJumpTurn (t : Turn) : Prop :=
  t ≠ [] ∧ ∀ m ∈ t, (m.1.1 - m.2.1).natAbs = 2 ∧ (m.1.2 - m.2.2).natAbs = 2

/-- A turn consisting of exactly one `±1` diagonal step. -/
def IsSingleStepTurn (t : Turn) : Prop :=
  ∃ m : Move, t = [m] ∧ (m.1.1 - m.2.1).natAbs = 1 ∧ (m.1.2 - m.2.2).natAbs = 1

/-- Some piece of player `p` somewhere on the board has a jump available
(phrased through the scan coordinates and `get_jump_moves`). -/
def JumpAvailable (b : Grid) (p : Nat) : Prop :=
  ∃ c ∈ allCoords (dimG b),
    (getCell b (c.1 : Int) (c.2 : Int) = p
     ∨ getCell b (c.1 : Int) (c.2 : Int) = p + 2) ∧
    getJumpMoves b (c.1 : Int) (c.2 : Int) ≠ []

instance (b : Grid) (p : Nat) : Decidable (JumpAvailable b p) :=
  List.decidableBEx _ _

/-! ### Heap model of `generate_successor` (ownership of board storage)

`CheckersBoard.copy` allocates fresh storage (`copy.deepcopy`); to state the
no-aliasing claim the boards live in an explicit store and a game state
holds an index into it. -/

/-- A game state whose board is an index into a store of grids. -/
structure HeapGame where
  boardIdx : Nat
  current_player : Nat
deriving DecidableEq, Repr

/-- Source `generate_successor` over the explicit store: allocate a fresh copy of
the source board at a fresh index, then (for a truthy move) apply the legs
to the fresh copy only and flip the player. -/
def hGenSuccessor (store : List Grid) (s : HeapGame) (mv : Option Turn) :
    List Grid × HeapGame :=
  let newIdx := store.length
  let store1 := store ++ [store.getD s.boardIdx []]
  if mv = none ∨ mv = some [] then
    (store1, { boardIdx := newIdx, current_player := s.current_player })
  else
    (store1.set newIdx (applyTurn (store1.getD newIdx []) (mv.getD [])),
     { boardIdx := newIdx, current_player := otherPure s.current_player })

/-! ### Monte-Carlo search: backpropagation -/

/-- The per-node statistics touched by backpropagation, together with the
current player of the node's game state. -/
structure MCNode where
  current_player : Nat
  wins : Nat
  visits : Nat
deriving DecidableEq, Repr

/-- Source `MonteCarloSearchAgent.backpropogate(node, result)`: the chain of parent
pointers from the given node up to the root is the list; every node on it
gets one more visit and `result` more wins. -/
def backpropogate : List MCNode → Nat → List MCNode
  | [], _ => []
  | n :: rest, result =>
      { n with visits := n.visits + 1, wins := n.wins + result }
        :: backpropogate rest result

/-- The backpropagation call of one `run_MCTS` trial:
`self.backpropogate(leaf_node, int(winner == game_state.current_player))`,
where `game_state` is `run_MCTS`'s argument, i.e. the root state. -/
def trialBackprop (rootPlayer winner : Nat) (path : List MCNode) :
    List MCNode :=
  backpropogate path (if winner = rootPlayer then 1 else 0)

/-- Claim C3 as stated, at a given input: every node on the path gets one
more visit, and one more win exactly when the winner equals that node's own
current player. -/
def PerspectiveCredit (path : List MCNode) (rootPlayer winner : Nat) : Prop :=
  ∀ i, i < path.length →
    ((trialBackprop rootPlayer winner path).getD i ⟨0, 0, 0⟩).visits
        = (path.getD i ⟨0, 0, 0⟩).visits + 1 ∧
    ((trialBackprop rootPlayer winner path).getD i ⟨0, 0, 0⟩).wins
        = (path.getD i ⟨0, 0, 0⟩).wins
          + (if winner = (path.getD i ⟨0, 0, 0⟩).current_player then 1 else 0)

/-! ### Minimax and alpha-beta search

Values are rationals extended with `±∞` (Python floats; the material ratios
have denominators far too small for rounding to reorder anything).  The
recursion depth bookkeeping is converted to remaining depth `r`
(`r = self.depth - depth`); a structural fuel `2r + phase` drives the
mutual recursion `max_value at r → min_value at r → max_value at r-1`
with exact bookkeeping, so the wrappers below compute the source recursion.
-/

/-- The value lattice: `ℚ` with `-∞` (`⊥`) and `+∞`. -/
abbrev Val : Type := WithBot (WithTop ℚ)

/-- Python `float('inf')`. -/
def topV : Val := ((⊤ : WithTop ℚ) : Val)

/-- Python `float('-inf')`. -/
def botV : Val := ⊥

/-- Source `MinimaxSearchAgent.get_player_piece_ratio`. -/
def playerPieceRatio (s : GameState) (p : Nat) : Val :=
  let o := otherPure p
  let pc := pieceCount s.board p + pieceCount s.board (p + 2)
  let oc := pieceCount s.board o + pieceCount s.board (o + 2)
  if oc = 0 then topV else (((pc : ℚ) / (oc : ℚ) : ℚ) : WithTop ℚ)

/-- The terminal evaluation of a max layer:
`self.evaluation_function(game_state, game_state.current_player)`. -/
def evalMax (g : GameState) : Val := playerPieceRatio g g.current_player

/-- The terminal evaluation of a min layer:
`self.evaluation_function(game_state, game_state.other_player())`. -/
def evalMin (g : GameState) : Val :=
  playerPieceRatio g (otherPure g.current_player)

/-- Fueled encoding of `MinimaxSearchAgent.max_value` / `min_value`
(`isMax` selects the layer; `r` is the remaining depth). -/
def mmF : Nat → Nat → Bool → GameState → Val
  | 0, _, isMax, g => if isMax then evalMax g else evalMin g
  | fuel + 1, r, isMax, g =>
      if isGameOver g = true ∨ r = 0 then
        (if isMax then evalMax g else evalMin g)
      else if isMax then
        (getLegalMoves g none).foldl
          (fun v a => max v (mmF fuel r false (succState g a))) botV
      else
        (getLegalMoves g none).foldl
          (fun v a => min v (mmF fuel (r - 1) true (succState g a))) topV

/-- Source `MinimaxSearchAgent.min_value(game_state, depth)` at remaining depth
`r = self.depth - depth`. -/
def mmMin (g : GameState) (r : Nat) : Val := mmF (2 * r) r false g

/-- Source `MinimaxSearchAgent.max_value(game_state, depth)` at remaining depth
`r = self.depth - depth`. -/
def mmMax (g : GameState) (r : Nat) : Val := mmF (2 * r + 1) r true g

/-- Python's `max(iterable, key=...)` over an association list in insertion
order: a later element replaces the current best only when strictly
greater, so the first maximal element wins. -/
def pyMaxGo (a : Turn) (v : Val) : List (Turn × Val) → Turn
  | [] => a
  | (b, w) :: rest => if v < w then pyMaxGo b w rest else pyMaxGo a v rest

/-- Python `max(action_values, key=lambda x: action_values[x])` (`None` when there
are no actions, where Python raises). -/
def pyMax : List (Turn × Val) → Option Turn
  | [] => none
  | (a, v) :: rest => some (pyMaxGo a v rest)

/-- Source `MinimaxSearchAgent.get_action` with search depth `depth`. -/
def mmGetAction (g : GameState) (depth : Nat) : Option Turn :=
  pyMax ((getLegalMoves g none).map
    (fun a => (a, mmMin (succState g a) depth)))

/-- Fueled encoding of `AlphaBetaMinimaxAgent.max_value` / `min_value`
(without the root `argmax` flag).  The pruning `return` is modelled by a
frozen fold state `(v, evolving bound, stopped)`. -/
def abF : Nat → Nat → Bool → Val → Val → GameState → Val
  | 0, _, isMax, _, _, g => if isMax then evalMax g else evalMin g
  | fuel + 1, r, isMax, alphaV, betaV, g =>
      if isGameOver g = true ∨ r = 0 then
        (if isMax then evalMax g else evalMin g)
      else if isMax then
        ((getLegalMoves g none).foldl
          (fun st a =>
            if st.2.2 then st
            else
              let v := max st.1 (abF fuel r false st.2.1 betaV (succState g a))
              if betaV ≤ v then (v, st.2.1, true)
              else (v, max st.2.1 v, false))
          ((botV, alphaV, false) : Val × Val × Bool)).1
      else
        ((getLegalMoves g none).foldl
          (fun st a =>
            if st.2.2 then st
            else
              let v := min st.1
                (abF fuel (r - 1) true alphaV st.2.1 (succState g a))
              if v ≤ alphaV then (v, st.2.1, true)
              else (v, min st.2.1 v, false))
          ((topV, betaV, false) : Val × Val × Bool)).1

/-- Source `AlphaBetaMinimaxAgent.min_value(game_state, alpha, beta, depth)` at
remaining depth `r`. -/
def abMin (g : GameState) (alphaV betaV : Val) (r : Nat) : Val :=
  abF (2 * r) r false alphaV betaV g

/-- Python `next(action for action, value in action_values.items() if v == value)`
(`None` when no stored value matches, where Python raises). -/
def firstEq (l : List (Turn × Val)) (v : Val) : Option Turn :=
  (l.find? (fun p => decide (p.2 = v))).map Prod.fst

/-- The root loop of `AlphaBetaMinimaxAgent.max_value(..., argmax=True)`:
`action_values[action]` stores the *running* max `v`; on `v >= beta` or at
the end, the first action whose stored value equals `v` is returned. -/
def abRootLoop (g : GameState) (r : Nat) :
    List Turn → Val → Val → List (Turn × Val) → Option Turn
  | [], v, _, stored => firstEq stored v
  | a :: rest, v, alphaV, stored =>
      let w := abF (2 * r) r false alphaV topV (succState g a)
      let vN := max v w
      let storedN := stored ++ [(a, vN)]
      if topV ≤ vN then firstEq storedN vN
      else abRootLoop g r rest vN (max alphaV vN) storedN

/-- Source `AlphaBetaMinimaxAgent.get_action` with search depth `depth`: when the
root state is terminal or the depth is zero, the source returns the static
evaluation (a float, not a Turn) — kept as `Sum.inl`. -/
def abGetAction (g : GameState) (depth : Nat) : Sum Val (Option Turn) :=
  if isGameOver g = true ∨ depth = 0 then Sum.inl (evalMax g)
  else Sum.inr (abRootLoop g depth (getLegalMoves g none) botV botV [])

/-- The root loop over precomputed child values (used to factor the
agreement proof: under the no-pruning-effect hypothesis the real loop
computes exactly this). -/
def abLoopPure : List (Turn × Val) → Val → List (Turn × Val) → Option Turn
  | [], v, stored => firstEq stored v
  | (a, w) :: rest, v, stored =>
      let vN := max v w
      let storedN := stored ++ [(a, vN)]
      if topV ≤ vN then firstEq storedN vN
      else abLoopPure rest vN storedN

/-- The maximum of the values of an association list. -/
def listMaxV (l : List (Turn × Val)) : Val :=
  l.foldl (fun acc p => max acc p.2) botV

/-- The first turn attaining the maximal value. -/
def firstMax (l : List (Turn × Val)) : Option Turn := firstEq l (listMaxV l)

/-- The stored association list of the root loop: each action is paired
with the running maximum at the time it was processed. -/
def runPairs (v0 : Val) : List (Turn × Val) → List (Turn × Val)
  | [] => []
  | (a, w) :: rest => (a, max v0 w) :: runPairs (max v0 w) rest

/-! ### The corrected claims, stated as found in the claim list -/

/-- Claim C4 as stated, at a given state: terminal iff one side has no
pieces or the side to move has no legal moves; non-terminal states report
no winner. -/
def SpecTerminalClaim (s : GameState) : Prop :=
  (isGameOver s = true ↔
    (¬(hasPiece s.board 1 = true ∨ hasPiece s.board 3 = true)
     ∨ ¬(hasPiece s.board 2 = true ∨ hasPiece s.board 4 = true)
     ∨ getLegalMoves s (some s.current_player) = []))
  ∧ ((hasPiece s.board 1 = true ∨ hasPiece s.board 3 = true)
     → (hasPiece s.board 2 = true ∨ hasPiece s.board 4 = true)
     → getLegalMoves s (some s.current_player) ≠ []
     → getWinner s = none)

/-- Claim C5 as stated, at a given move: `make_move` reports an error
whenever the destination is occupied or a jump's intervening cell does not
hold an opponent piece. -/
def SpecMoveErrorClaim (b : Grid) (m : Move) : Prop :=
  (getCell b m.2.1 m.2.2 ≠ 0
   ∨ ((m.1.1 - m.2.1).natAbs = 2
      ∧ getCell b ((m.1.1 + m.2.1) / 2) ((m.1.2 + m.2.2) / 2)
          ∉ enemiesOf (getCell b m.1.1 m.1.2)))
  → (makeMoveIP b m).2.isSome = true

/-- Claim C9 as stated, at a given state: every argument other than 1 and 2
raises `InvalidPlayerId`. -/
def SpecOtherPlayerClaim (s : GameState) : Prop :=
  ∀ n : Nat, n ≠ 1 → n ≠ 2 →
    otherPlayer s (some n) = Except.error CheckersErr.invalidPlayerId

/-- Claim C6 as stated, at a given state and depth: whenever pruning does
not change the values explored for the root actions, the alpha-beta agent
returns the same Turn as the plain minimax agent. -/
def SpecAlphaBetaAgreeClaim (g : GameState) (depth : Nat) : Prop :=
  getLegalMoves g none ≠ [] →
  (∀ a ∈ getLegalMoves g none, ∀ av bv : Val,
      abMin (succState g a) av bv depth = mmMin (succState g a) depth) →
  abGetAction g depth = Sum.inr (mmGetAction g depth)

/-! ### Basic lemmas about `getD`/`set` -/

theorem getD_set_self {α : Type} (l : List α) (i : Nat) (v d : α)
    (h : i < l.length) : (l.set i v).getD i d = v := by
  induction l generalizing i with
  | nil => simp at h
  | cons a t ih =>
    cases i with
    | zero => rfl
    | succ n => simpa using ih n (by simpa using h)

theorem getD_set_ne {α : Type} (l : List α) (i j : Nat) (v d : α)
    (h : i ≠ j) : (l.set i v).getD j d = l.getD j d := by
  induction l generalizing i j with
  | nil => simp [List.set]
  | cons a t ih =>
    cases i with
    | zero =>
      cases j with
      | zero => exact absurd rfl h
      | succ m => rfl
    | succ n =>
      cases j with
      | zero => rfl
      | succ m => simpa using ih n m (by omega)

theorem getD_mem {α : Type} (l : List α) (i : Nat) (d : α)
    (h : i < l.length) : l.getD i d ∈ l := by
  rw [List.getD_eq_getElem l d h]
  exact List.getElem_mem h

theorem sum_set (l : List Nat) (i : Nat) (a : Nat) (h : i < l.length) :
    (l.set i a).sum + l.getD i 0 = l.sum + a := by
  induction l generalizing i with
  | nil => simp at h
  | cons hd tl ih =>
    cases i with
    | zero => simp; omega
    | succ n =>
      have := ih n (by simpa using h)
      simp only [List.set, List.sum_cons, List.getD_cons_succ]
      omega

/-! ### Lemmas about `getCell` / `setCell` -/

theorem length_setCell (b : Grid) (x y : Int) (v : Nat) :
    (setCell b x y v).length = b.length := by
  simp [setCell]

theorem dimG_setCell (b : Grid) (x y : Int) (v : Nat) :
    dimG (setCell b x y v) = dimG b := by
  simp [dimG, setCell]

theorem row_length {b : Grid} (hsq : IsSquare b) {y : Nat}
    (hy : y < b.length) : (b.getD y []).length = b.length :=
  hsq _ (getD_mem b y [] hy)

theorem isSquare_setCell {b : Grid} (x y : Int) (v : Nat)
    (h : IsSquare b) : IsSquare (setCell b x y v) := by
  by_cases hy : y.toNat < b.length
  · intro r hr
    rw [length_setCell]
    rcases List.mem_or_eq_of_mem_set hr with h1 | h1
    · exact h r h1
    · subst h1
      rw [List.length_set]
      exact row_length h hy
  · have heq : setCell b x y v = b := by
      unfold setCell
      exact List.set_eq_of_length_le (by omega)
    rw [heq]
    exact h

theorem getCell_setCell_self {b : Grid} {x y : Int} (v : Nat)
    (hsq : IsSquare b)
    (hy : y.toNat < b.length) (hx : x.toNat < b.length) :
    getCell (setCell b x y v) x y = v := by
  unfold getCell setCell
  rw [getD_set_self _ _ _ _ hy, getD_set_self]
  rw [row_length hsq hy]
  exact hx

theorem getCell_setCell_ne {b : Grid} {x y x' y' : Int} (v : Nat)
    (h : x.toNat ≠ x'.toNat ∨ y.toNat ≠ y'.toNat) :
    getCell (setCell b x y v) x' y' = getCell b x' y' := by
  unfold getCell setCell
  rcases h with h | h
  · by_cases hyy : y.toNat = y'.toNat
    · by_cases hlt : y.toNat < b.length
      · rw [← hyy, getD_set_self _ _ _ _ hlt, getD_set_ne _ _ _ _ _ h]
      · rw [List.set_eq_of_length_le (by omega)]
    · rw [getD_set_ne _ _ _ _ _ hyy]
  · rw [getD_set_ne _ _ _ _ _ h]

/-- If some cell reads non-zero, the grid has at least one piece. -/
theorem countPieces_pos_of_getCell_ne {b : Grid} {x y : Int}
    (h : getCell b x y ≠ 0) : 0 < countPieces b := by
  unfold getCell at h
  by_cases hy : y.toNat < b.length
  · by_cases hx : x.toNat < (b.getD y.toNat []).length
    · have hc : (b.getD y.toNat []).getD x.toNat 0 ∈ b.getD y.toNat [] :=
        getD_mem _ _ _ hx
      have h1 : 0 < rowCount (b.getD y.toNat []) := by
        unfold rowCount
        rw [List.countP_pos_iff]
        exact ⟨_, hc, by simpa using h⟩
      have h2 : rowCount (b.getD y.toNat []) ∈ b.map rowCount :=
        List.mem_map_of_mem _ (getD_mem b y.toNat [] hy)
      calc 0 < rowCount (b.getD y.toNat []) := h1
        _ ≤ (b.map rowCount).sum := List.single_le_sum (by simp) _ h2
    · have hcell : (b.getD y.toNat []).getD x.toNat 0 = 0 :=
        List.getD_eq_default _ _ (by omega)
      exact absurd hcell h
  · have hrow : b.getD y.toNat [] = [] :=
      List.getD_eq_default _ _ (by omega)
    rw [hrow] at h
    simp at h

theorem countPieces_eq_zero_cell {b : Grid} (h : countPieces b = 0)
    (x y : Int) : getCell b x y = 0 := by
  by_contra hne
  have := countPieces_pos_of_getCell_ne hne
  omega

theorem rowCount_set (r : List Nat) (i : Nat) (v : Nat) (h : i < r.length) :
    rowCount (r.set i v) + (if r.getD i 0 ≠ 0 then 1 else 0)
      = rowCount r + (if v ≠ 0 then 1 else 0) := by
  induction r generalizing i with
  | nil => simp at h
  | cons a t ih =>
    cases i with
    | zero =>
      simp only [List.set, List.getD_cons_zero, rowCount, List.countP_cons]
      by_cases ha : a = 0 <;> by_cases hv : v = 0 <;> simp [ha, hv]
    | succ n =>
      have := ih n (by simpa using h)
      simp only [List.set, List.getD_cons_succ, rowCount, List.countP_cons]
        at this ⊢
      by_cases ha : a = 0 <;> simp [ha] at this ⊢ <;> omega

/-- Effect of a single cell write on the piece count (stated additively to
avoid natural subtraction). -/
theorem countPieces_setCell {b : Grid} {x y : Int} (v : Nat)
    (hsq : IsSquare b)
    (hy : y.toNat < b.length) (hx : x.toNat < b.length) :
    countPieces (setCell b x y v) + (if getCell b x y ≠ 0 then 1 else 0)
      = countPieces b + (if v ≠ 0 then 1 else 0) := by
  have hrow : (b.getD y.toNat []).length = b.length := row_length hsq hy
  have hxrow : x.toNat < (b.getD y.toNat []).length := by omega
  have rowEq := rowCount_set (b.getD y.toNat []) x.toNat v hxrow
  have hylen : y.toNat < (b.map rowCount).length := by simpa using hy
  have hsum := sum_set (b.map rowCount) y.toNat
    (rowCount ((b.getD y.toNat []).set x.toNat v)) hylen
  have hgd : (b.map rowCount).getD y.toNat 0 = rowCount (b.getD y.toNat []) := by
    rw [List.getD_eq_getElem _ _ hylen, List.getElem_map,
      List.getD_eq_getElem b [] hy]
  rw [hgd] at hsum
  have hcp : countPieces (setCell b x y v)
      = ((b.map rowCount).set y.toNat
          (rowCount ((b.getD y.toNat []).set x.toNat v))).sum := by
    unfold countPieces setCell
    rw [List.map_set]
  have hcell : getCell b x y = (b.getD y.toNat []).getD x.toNat 0 := rfl
  rw [hcp, hcell]
  unfold countPieces
  omega

theorem makeMoveU_def (b : Grid) (m : Move) :
    makeMoveU b m =
      (let piece := getCell b m.1.1 m.1.2
       let b2 := setCell (setCell b m.1.1 m.1.2 0) m.2.1 m.2.2 piece
       let b3 := if (m.1.1 - m.2.1).natAbs = 2 then
           setCell b2 ((m.1.1 + m.2.1) / 2) ((m.1.2 + m.2.2) / 2) 0 else b2
       let b4 := if piece = 1 ∧ m.2.2 = (dimG b : Int) - 1 then
           setCell b3 m.2.1 m.2.2 3 else b3
       if piece = 2 ∧ m.2.2 = 0 then setCell b4 m.2.1 m.2.2 4 else b4) := rfl

theorem dimG_makeMoveU (b : Grid) (m : Move) :
    dimG (makeMoveU b m) = dimG b := by
  rw [makeMoveU_def]
  dsimp only
  split <;> split <;> split <;> simp [dimG_setCell]

theorem isSquare_makeMoveU {b : Grid} (m : Move) (hsq : IsSquare b) :
    IsSquare (makeMoveU b m) := by
  rw [makeMoveU_def]
  dsimp only
  split <;> split <;> split <;>
    (repeat apply isSquare_setCell) <;> exact hsq

/-- A jump leg (`±2` displacement in both coordinates, source occupied,
destination empty, jumped cell occupied) removes exactly one piece from
the board. This is the decreasing measure of `get_jump_moves`. -/
theorem countPieces_makeMoveU_jump {b : Grid} {x y nx ny : Int}
    (hsq : IsSquare b)
    (hx : 0 ≤ x ∧ x < (dimG b : Int)) (hy : 0 ≤ y ∧ y < (dimG b : Int))
    (hnx : 0 ≤ nx ∧ nx < (dimG b : Int)) (hny : 0 ≤ ny ∧ ny < (dimG b : Int))
    (hdx : (x - nx).natAbs = 2) (hdy : (y - ny).natAbs = 2)
    (hsrc : getCell b x y ≠ 0) (hdest : getCell b nx ny = 0)
    (hmid : getCell b ((x + nx) / 2) ((y + ny) / 2) ≠ 0) :
    countPieces (makeMoveU b ((x, y), (nx, ny))) + 1 = countPieces b := by
  have hdim : 0 < (dimG b : Int) := by omega
  have hdimeq : (dimG b : Nat) = b.length := rfl
  -- b1: pick the piece up
  have hsq1 : IsSquare (setCell b x y 0) := isSquare_setCell _ _ _ hsq
  have hc1 : countPieces (setCell b x y 0) + 1 = countPieces b := by
    have := countPieces_setCell (b := b) (x := x) (y := y) 0 hsq
      (by omega) (by omega)
    simp [hsrc] at this
    omega
  -- b2: put it down on the (still empty) destination
  have hd1 : getCell (setCell b x y 0) nx ny = getCell b nx ny :=
    getCell_setCell_ne _ (Or.inr (by omega))
  have hsq2 : IsSquare (setCell (setCell b x y 0) nx ny (getCell b x y)) :=
    isSquare_setCell _ _ _ hsq1
  have hc2 : countPieces (setCell (setCell b x y 0) nx ny (getCell b x y))
      = countPieces (setCell b x y 0) + 1 := by
    have := countPieces_setCell (b := setCell b x y 0) (x := nx) (y := ny)
      (getCell b x y) hsq1
      (by rw [length_setCell]; omega) (by rw [length_setCell]; omega)
    rw [hd1] at this
    simp [hdest, hsrc] at this
    omega
  -- b3: remove the jumped piece
  have hm2 : getCell (setCell (setCell b x y 0) nx ny (getCell b x y))
      ((x + nx) / 2) ((y + ny) / 2) = getCell b ((x + nx) / 2) ((y + ny) / 2) := by
    rw [getCell_setCell_ne _ (Or.inr (by omega)),
      getCell_setCell_ne _ (Or.inr (by omega))]
  have hsq3 : IsSquare (setCell (setCell (setCell b x y 0) nx ny (getCell b x y))
      ((x + nx) / 2) ((y + ny) / 2) 0) := isSquare_setCell _ _ _ hsq2
  have hlen2 : (setCell (setCell b x y 0) nx ny (getCell b x y)).length
      = b.length := by
    rw [length_setCell, length_setCell]
  have hc3 : countPieces (setCell (setCell (setCell b x y 0) nx ny
        (getCell b x y)) ((x + nx) / 2) ((y + ny) / 2) 0) + 1
      = countPieces (setCell (setCell b x y 0) nx ny (getCell b x y)) := by
    have := countPieces_setCell
      (b := setCell (setCell b x y 0) nx ny (getCell b x y))
      (x := (x + nx) / 2) (y := (y + ny) / 2) 0 hsq2
      (by omega) (by omega)
    rw [hm2] at this
    simp [hmid] at this
    omega
  have hlen3 : (setCell (setCell (setCell b x y 0) nx ny (getCell b x y))
      ((x + nx) / 2) ((y + ny) / 2) 0).length = b.length := by
    rw [length_setCell]
    omega
  -- the destination now holds the moved piece
  have hd3 : getCell (setCell (setCell (setCell b x y 0) nx ny (getCell b x y))
      ((x + nx) / 2) ((y + ny) / 2) 0) nx ny = getCell b x y := by
    rw [getCell_setCell_ne _ (Or.inr (by omega)),
      getCell_setCell_self _ hsq1 (by rw [length_setCell]; omega)
        (by rw [length_setCell]; omega)]
  -- promotion rewrites a non-empty cell to a non-empty cell
  have promoCount : ∀ v : Nat, v ≠ 0 →
      countPieces (setCell (setCell (setCell (setCell b x y 0) nx ny
          (getCell b x y)) ((x + nx) / 2) ((y + ny) / 2) 0) nx ny v)
        = countPieces (setCell (setCell (setCell b x y 0) nx ny
          (getCell b x y)) ((x + nx) / 2) ((y + ny) / 2) 0) := by
    intro v hv
    have := countPieces_setCell
      (b := setCell (setCell (setCell b x y 0) nx ny (getCell b x y))
        ((x + nx) / 2) ((y + ny) / 2) 0)
      (x := nx) (y := ny) v hsq3
      (by omega) (by omega)
    rw [hd3] at this
    simp [hsrc, hv] at this
    omega
  have goal3 : countPieces (setCell (setCell (setCell b x y 0) nx ny
      (getCell b x y)) ((x + nx) / 2) ((y + ny) / 2) 0) + 1
      = countPieces b := by
    omega
  rw [makeMoveU_def]
  dsimp only
  by_cases h2 : getCell b x y = 2 ∧ ny = 0
  · rw [if_pos h2]
    have hn1 : ¬(getCell b x y = 1 ∧ ny = (dimG b : Int) - 1) := by
      intro h1
      omega
    rw [if_neg hn1, if_pos (show (x - nx).natAbs = 2 from hdx)]
    rw [promoCount 4 (by omega)]
    exact goal3
  · rw [if_neg h2]
    by_cases h1 : getCell b x y = 1 ∧ ny = (dimG b : Int) - 1
    · rw [if_pos h1, if_pos (show (x - nx).natAbs = 2 from hdx)]
      rw [promoCount 3 (by omega)]
      exact goal3
    · rw [if_neg h1, if_pos (show (x - nx).natAbs = 2 from hdx)]
      exact goal3

/-- What the destination cell holds after a (non-degenerate) leg is applied:
the moved piece, or its king if the promotion rule fires. -/
theorem getCell_makeMoveU_dest {b : Grid} {x y nx ny : Int}
    (hsq : IsSquare b)
    (hx : 0 ≤ x) (_hy : 0 ≤ y)
    (hnx : 0 ≤ nx ∧ nx < (dimG b : Int)) (hny : 0 ≤ ny ∧ ny < (dimG b : Int)) :
    getCell (makeMoveU b ((x, y), (nx, ny))) nx ny =
      (if getCell b x y = 1 ∧ ny = (dimG b : Int) - 1 then 3
       else if getCell b x y = 2 ∧ ny = 0 then 4
       else getCell b x y) := by
  have hdimeq : (dimG b : Nat) = b.length := rfl
  have hsq1 : IsSquare (setCell b x y 0) := isSquare_setCell _ _ _ hsq
  have hsq2 : IsSquare (setCell (setCell b x y 0) nx ny (getCell b x y)) :=
    isSquare_setCell _ _ _ hsq1
  have hlen2 : (setCell (setCell b x y 0) nx ny (getCell b x y)).length
      = b.length := by
    rw [length_setCell, length_setCell]
  have hd2 : getCell (setCell (setCell b x y 0) nx ny (getCell b x y)) nx ny
      = getCell b x y := by
    rw [getCell_setCell_self _ hsq1 (by rw [length_setCell]; omega)
      (by rw [length_setCell]; omega)]
  have hsq3 : IsSquare (if (x - nx).natAbs = 2 then
      setCell (setCell (setCell b x y 0) nx ny (getCell b x y))
        ((x + nx) / 2) ((y + ny) / 2) 0
      else setCell (setCell b x y 0) nx ny (getCell b x y)) := by
    split
    · exact isSquare_setCell _ _ _ hsq2
    · exact hsq2
  have hlen3 : (if (x - nx).natAbs = 2 then
      setCell (setCell (setCell b x y 0) nx ny (getCell b x y))
        ((x + nx) / 2) ((y + ny) / 2) 0
      else setCell (setCell b x y 0) nx ny (getCell b x y)).length
      = b.length := by
    split
    · rw [length_setCell]
      omega
    · omega
  have hd3 : getCell (if (x - nx).natAbs = 2 then
      setCell (setCell (setCell b x y 0) nx ny (getCell b x y))
        ((x + nx) / 2) ((y + ny) / 2) 0
      else setCell (setCell b x y 0) nx ny (getCell b x y)) nx ny
      = getCell b x y := by
    split
    · rename_i hj
      rw [getCell_setCell_ne _ (Or.inl (by omega)), hd2]
    · exact hd2
  rw [makeMoveU_def]
  dsimp only
  by_cases h2 : getCell b x y = 2 ∧ ny = 0
  · have hn1 : ¬(getCell b x y = 1 ∧ ny = (dimG b : Int) - 1) := by
      intro h1
      omega
    rw [if_pos h2, if_neg hn1, if_pos h2, if_neg hn1,
      getCell_setCell_self _ hsq3 (by omega) (by omega)]
  · rw [if_neg h2, if_neg h2]
    by_cases h1 : getCell b x y = 1 ∧ ny = (dimG b : Int) - 1
    · rw [if_pos h1, if_pos h1,
        getCell_setCell_self _ hsq3 (by omega) (by omega)]
    · rw [if_neg h1, if_neg h1]
      exact hd3

theorem mem_enemiesOf_ne_zero {c p : Nat} (h : c ∈ enemiesOf p) : c ≠ 0 := by
  unfold enemiesOf at h
  split_ifs at h <;> simp at h <;> omega

theorem jumpDirs_spec {d : Int × Int} (h : d ∈ jumpDirs) :
    (d.1 = 2 ∨ d.1 = -2) ∧ (d.2 = 2 ∨ d.2 = -2) := by
  simp [jumpDirs] at h
  rcases h with h | h | h | h <;> simp [h]

theorem legalJumpLeg_iff {b : Grid} {x y : Int} {d : Int × Int}
    (hd : d ∈ jumpDirs) :
    LegalJumpLeg b x y (x + d.1) (y + d.2) ↔
      (¬((getCell b x y = 1 ∧ d.2 < 0) ∨ (getCell b x y = 2 ∧ d.2 > 0)) ∧
       (0 ≤ x + d.1 ∧ x + d.1 < (dimG b : Int) ∧
        0 ≤ y + d.2 ∧ y + d.2 < (dimG b : Int)) ∧
       getCell b (x + d.1) (y + d.2) = 0 ∧
       getCell b (x + d.1 / 2) (y + d.2 / 2) ∈ enemiesOf (getCell b x y)) := by
  constructor
  · rintro ⟨e, he, h1, h2, h3⟩
    have he1 : e.1 = d.1 := by omega
    have he2 : e.2 = d.2 := by omega
    rw [he1, he2] at h3
    exact h3
  · rintro ⟨h1, h2, h3⟩
    exact ⟨d, hd, rfl, rfl, h1, h2, h3⟩

/-- A single direction's contribution is non-empty exactly when the
direction yields a legal jump (independently of the recursion results). -/
theorem jumpStep_ne_nil {rec : Grid → Int → Int → List Turn} {b : Grid}
    {x y : Int} {d : Int × Int} (hd : d ∈ jumpDirs) :
    jumpStep rec b x y (getCell b x y) d ≠ [] ↔
      LegalJumpLeg b x y (x + d.1) (y + d.2) := by
  rw [legalJumpLeg_iff hd]
  unfold jumpStep
  by_cases hf : (getCell b x y = 1 ∧ d.2 < 0) ∨ (getCell b x y = 2 ∧ d.2 > 0)
  · simp [hf]
  · rw [if_neg hf]
    by_cases hb : 0 ≤ x + d.1 ∧ x + d.1 < (dimG b : Int) ∧
        0 ≤ y + d.2 ∧ y + d.2 < (dimG b : Int)
    · rw [if_pos hb]
      by_cases hdest : getCell b (x + d.1) (y + d.2) = 0
      · rw [if_neg (not_not_intro hdest)]
        by_cases hmid : getCell b (x + d.1 / 2) (y + d.2 / 2)
            ∈ enemiesOf (getCell b x y)
        · rw [if_pos hmid]
          constructor
          · intro _
            exact ⟨hf, hb, hdest, hmid⟩
          · intro _
            split
            · simp
            · rename_i hsubs
              simp only [ne_eq, List.map_eq_nil_iff]
              exact hsubs
        · rw [if_neg hmid]
          simp [hmid]
      · rw [if_pos (by simpa using hdest)]
        simp [hdest]
    · rw [if_neg hb]
      simp [hb]

theorem chainFrom_nil (b : Grid) (x y : Int) : ChainFrom b x y [] := trivial

theorem chainFrom_cons (b : Grid) (x y sx sy ex ey : Int) (rest : List Move) :
    ChainFrom b x y (((sx, sy), (ex, ey)) :: rest) ↔
      ((sx, sy) = (x, y) ∧ LegalJumpLeg b x y ex ey ∧
       ChainFrom (makeMoveU b ((sx, sy), (ex, ey))) ex ey rest) := Iff.rfl

theorem applyTurn_cons (b : Grid) (m : Move) (rest : List Move) :
    applyTurn b (m :: rest) = applyTurn (makeMoveU b m) rest := rfl

theorem turnEnd_cons (p : Int × Int) (s e : Int × Int) (rest : List Move) :
    turnEnd p ((s, e) :: rest) = turnEnd e rest := rfl

/-- Membership in one direction's contribution. -/
theorem mem_jumpStep_iff {rec : Grid → Int → Int → List Turn} {b : Grid}
    {x y : Int} {d : Int × Int} (hd : d ∈ jumpDirs) {t : Turn} :
    t ∈ jumpStep rec b x y (getCell b x y) d ↔
      (LegalJumpLeg b x y (x + d.1) (y + d.2) ∧
       ((rec (makeMoveU b ((x, y), (x + d.1, y + d.2))) (x + d.1) (y + d.2)
           = [] ∧ t = [((x, y), (x + d.1, y + d.2))]) ∨
        (∃ s ∈ rec (makeMoveU b ((x, y), (x + d.1, y + d.2))) (x + d.1)
            (y + d.2), t = ((x, y), (x + d.1, y + d.2)) :: s))) := by
  unfold jumpStep
  by_cases hf : (getCell b x y = 1 ∧ d.2 < 0) ∨ (getCell b x y = 2 ∧ d.2 > 0)
  · rw [if_pos hf]
    simp only [List.not_mem_nil, false_iff, not_and]
    intro hleg
    exact absurd (((legalJumpLeg_iff hd).1 hleg).1 ) (not_not_intro hf)
  · rw [if_neg hf]
    by_cases hb : 0 ≤ x + d.1 ∧ x + d.1 < (dimG b : Int) ∧
        0 ≤ y + d.2 ∧ y + d.2 < (dimG b : Int)
    · rw [if_pos hb]
      by_cases hdest : getCell b (x + d.1) (y + d.2) = 0
      · rw [if_neg (not_not_intro hdest)]
        by_cases hmid : getCell b (x + d.1 / 2) (y + d.2 / 2)
            ∈ enemiesOf (getCell b x y)
        · rw [if_pos hmid]
          have hleg : LegalJumpLeg b x y (x + d.1) (y + d.2) :=
            (legalJumpLeg_iff hd).2 ⟨hf, hb, hdest, hmid⟩
          by_cases hsubs : rec (makeMoveU b ((x, y), (x + d.1, y + d.2)))
              (x + d.1) (y + d.2) = []
          · rw [if_pos hsubs]
            rw [List.mem_singleton]
            constructor
            · intro ht
              exact ⟨hleg, Or.inl ⟨hsubs, ht⟩⟩
            · rintro ⟨-, (⟨-, ht⟩ | ⟨s, hs, -⟩)⟩
              · exact ht
              · rw [hsubs] at hs
                simp at hs
          · rw [if_neg hsubs]
            rw [List.mem_map]
            constructor
            · rintro ⟨s, hs, ht⟩
              exact ⟨hleg, Or.inr ⟨s, hs, ht.symm⟩⟩
            · rintro ⟨-, (⟨hnil, -⟩ | ⟨s, hs, ht⟩)⟩
              · exact absurd hnil hsubs
              · exact ⟨s, hs, ht.symm⟩
        · rw [if_neg hmid]
          simp only [List.not_mem_nil, false_iff, not_and]
          intro hleg
          exact absurd (((legalJumpLeg_iff hd).1 hleg).2.2.2) hmid
      · rw [if_pos (by simpa using hdest)]
        simp only [List.not_mem_nil, false_iff, not_and]
        intro hleg
        exact absurd (((legalJumpLeg_iff hd).1 hleg).2.2.1) hdest
    · rw [if_neg hb]
      simp only [List.not_mem_nil, false_iff, not_and]
      intro hleg
      exact absurd (((legalJumpLeg_iff hd).1 hleg).2.1) hb

/-- Function `get_jump_moves` returns a non-empty list exactly when a jump is
available from `(x, y)` (the fuel hypothesis ties the fuel to the board). -/
theorem getJumpMovesF_ne_nil_iff {fuel : Nat} {b : Grid} {x y : Int}
    (hfuel : countPieces b = fuel) :
    getJumpMovesF fuel b x y ≠ [] ↔ canJump b x y := by
  cases fuel with
  | zero =>
    simp only [getJumpMovesF, ne_eq, not_true_eq_false, false_iff]
    rintro ⟨d, hd, e, he, h1, h2, h3, h4, h5, h6⟩
    have hp : getCell b x y = 0 := countPieces_eq_zero_cell hfuel x y
    rw [hp] at h6
    simp [enemiesOf] at h6
  | succ n =>
    show jumpBody (getJumpMovesF n) b x y ≠ [] ↔ _
    unfold jumpBody
    by_cases hp : getCell b x y = 0
    · rw [if_pos hp]
      simp only [ne_eq, not_true_eq_false, false_iff]
      rintro ⟨d, hd, e, he, h1, h2, h3, h4, h5, h6⟩
      rw [hp] at h6
      simp [enemiesOf] at h6
    · rw [if_neg hp]
      rw [ne_eq, List.flatMap_eq_nil_iff]
      push_neg
      constructor
      · rintro ⟨d, hd, hne⟩
        exact ⟨d, hd, (jumpStep_ne_nil hd).1 hne⟩
      · rintro ⟨d, hd, hleg⟩
        exact ⟨d, hd, (jumpStep_ne_nil hd).2 hleg⟩

/-- The full characterization of `get_jump_moves`: the returned turns are
exactly the non-empty chained jump sequences that are maximal (no further
jump from the landing square of the final leg). -/
theorem getJumpMovesF_char :
    ∀ (fuel : Nat) (b : Grid) (x y : Int) (t : Turn),
      IsSquare b → countPieces b = fuel →
      0 ≤ x → x < (dimG b : Int) → 0 ≤ y → y < (dimG b : Int) →
      (t ∈ getJumpMovesF fuel b x y ↔
        (t ≠ [] ∧ ChainFrom b x y t ∧
         ¬canJump (applyTurn b t) (turnEnd (x, y) t).1 (turnEnd (x, y) t).2)) := by
  intro fuel
  induction fuel with
  | zero =>
    intro b x y t hsq hfuel hx1 hx2 hy1 hy2
    simp only [getJumpMovesF, List.not_mem_nil, false_iff, not_and]
    intro hne hch
    exfalso
    rcases t with _ | ⟨⟨⟨sx, sy⟩, ⟨ex, ey⟩⟩, rest⟩
    · exact hne rfl
    · rw [chainFrom_cons] at hch
      obtain ⟨-, hleg, -⟩ := hch
      obtain ⟨d, hd, h1, h2, h3, h4, h5, h6⟩ := hleg
      have hp : getCell b x y = 0 := countPieces_eq_zero_cell hfuel x y
      rw [hp] at h6
      simp [enemiesOf] at h6
  | succ n ih =>
    intro b x y t hsq hfuel hx1 hx2 hy1 hy2
    show t ∈ jumpBody (getJumpMovesF n) b x y ↔ _
    unfold jumpBody
    by_cases hp : getCell b x y = 0
    · rw [if_pos hp]
      simp only [List.not_mem_nil, false_iff, not_and]
      intro hne hch
      exfalso
      rcases t with _ | ⟨⟨⟨sx, sy⟩, ⟨ex, ey⟩⟩, rest⟩
      · exact hne rfl
      · rw [chainFrom_cons] at hch
        obtain ⟨-, hleg, -⟩ := hch
        obtain ⟨d, hd, h1, h2, h3, h4, h5, h6⟩ := hleg
        rw [hp] at h6
        simp [enemiesOf] at h6
    · rw [if_neg hp]
      rw [List.mem_flatMap]
      constructor
      · -- soundness: every returned turn is a maximal legal chain
        rintro ⟨d, hd, hmem⟩
        rw [mem_jumpStep_iff hd] at hmem
        obtain ⟨hleg, hcase⟩ := hmem
        obtain ⟨hf, hb, hdest, hmid⟩ := (legalJumpLeg_iff hd).1 hleg
        have hd2 := jumpDirs_spec hd
        have hmid' : getCell b ((x + (x + d.1)) / 2) ((y + (y + d.2)) / 2)
            ≠ 0 := by
          have e1 : (x + (x + d.1)) / 2 = x + d.1 / 2 := by omega
          have e2 : (y + (y + d.2)) / 2 = y + d.2 / 2 := by omega
          rw [e1, e2]
          exact mem_enemiesOf_ne_zero hmid
        have hcount : countPieces (makeMoveU b ((x, y), (x + d.1, y + d.2)))
            = n := by
          have := countPieces_makeMoveU_jump hsq ⟨hx1, hx2⟩ ⟨hy1, hy2⟩
            ⟨hb.1, hb.2.1⟩ ⟨hb.2.2.1, hb.2.2.2⟩
            (by omega) (by omega) hp hdest hmid'
          omega
        have hsq' : IsSquare (makeMoveU b ((x, y), (x + d.1, y + d.2))) :=
          isSquare_makeMoveU _ hsq
        have hdim' : (dimG (makeMoveU b ((x, y), (x + d.1, y + d.2))) : Int)
            = (dimG b : Int) := by
          rw [dimG_makeMoveU]
        rcases hcase with ⟨hsubs, ht⟩ | ⟨s, hs, ht⟩
        · subst ht
          refine ⟨by simp, ?_, ?_⟩
          · rw [chainFrom_cons]
            exact ⟨rfl, hleg, chainFrom_nil _ _ _⟩
          · rw [applyTurn_cons, turnEnd_cons]
            intro hc
            exact absurd hsubs ((getJumpMovesF_ne_nil_iff hcount).2 hc)
        · subst ht
          have ihs := (ih (makeMoveU b ((x, y), (x + d.1, y + d.2)))
            (x + d.1) (y + d.2) s hsq' hcount hb.1 (by omega)
            hb.2.2.1 (by omega)).1 hs
          obtain ⟨hsne, hchain, hmax⟩ := ihs
          refine ⟨by simp, ?_, ?_⟩
          · rw [chainFrom_cons]
            exact ⟨rfl, hleg, hchain⟩
          · rw [applyTurn_cons, turnEnd_cons]
            exact hmax
      · -- completeness: every maximal legal chain is returned
        rintro ⟨hne, hch, hmax⟩
        rcases t with _ | ⟨⟨⟨sx, sy⟩, ⟨ex, ey⟩⟩, rest⟩
        · exact absurd rfl hne
        · rw [chainFrom_cons] at hch
          obtain ⟨hs0, hleg, hrest⟩ := hch
          rw [Prod.mk.injEq] at hs0
          obtain ⟨d, hd, h1, h2, hf, hb, hdest, hmid⟩ := hleg
          rw [hs0.1, hs0.2] at hrest hmax ⊢
          rw [h1, h2] at hb hdest hrest hmax ⊢
          have hleg' : LegalJumpLeg b x y (x + d.1) (y + d.2) :=
            (legalJumpLeg_iff hd).2 ⟨hf, hb, hdest, hmid⟩
          have hd2 := jumpDirs_spec hd
          have hmid' : getCell b ((x + (x + d.1)) / 2) ((y + (y + d.2)) / 2)
              ≠ 0 := by
            have e1 : (x + (x + d.1)) / 2 = x + d.1 / 2 := by omega
            have e2 : (y + (y + d.2)) / 2 = y + d.2 / 2 := by omega
            rw [e1, e2]
            exact mem_enemiesOf_ne_zero hmid
          have hcount : countPieces (makeMoveU b ((x, y), (x + d.1, y + d.2)))
              = n := by
            have := countPieces_makeMoveU_jump hsq ⟨hx1, hx2⟩ ⟨hy1, hy2⟩
              ⟨hb.1, hb.2.1⟩ ⟨hb.2.2.1, hb.2.2.2⟩
              (by omega) (by omega) hp hdest hmid'
            omega
          have hsq' : IsSquare (makeMoveU b ((x, y), (x + d.1, y + d.2))) :=
            isSquare_makeMoveU _ hsq
          have hdim' : (dimG (makeMoveU b ((x, y), (x + d.1, y + d.2))) : Int)
              = (dimG b : Int) := by
            rw [dimG_makeMoveU]
          refine ⟨d, hd, ?_⟩
          rw [mem_jumpStep_iff hd]
          refine ⟨hleg', ?_⟩
          rw [applyTurn_cons, turnEnd_cons] at hmax
          rcases rest with _ | ⟨m, rest'⟩
          · -- single-leg chain: maximality forces the recursion to be empty
            have hsubs : getJumpMovesF n
                (makeMoveU b ((x, y), (x + d.1, y + d.2)))
                (x + d.1) (y + d.2) = [] := by
              by_contra hne2
              exact hmax ((getJumpMovesF_ne_nil_iff hcount).1 hne2)
            exact Or.inl ⟨hsubs, rfl⟩
          · -- longer chain: the tail is itself returned by the recursion
            have hmem : (m :: rest') ∈ getJumpMovesF n
                (makeMoveU b ((x, y), (x + d.1, y + d.2)))
                (x + d.1) (y + d.2) := by
              refine (ih _ (x + d.1) (y + d.2) (m :: rest') hsq' hcount
                hb.1 (by omega) hb.2.2.1 (by omega)).2 ⟨by simp, hrest, hmax⟩
            exact Or.inr ⟨m :: rest', hmem, rfl⟩

/-! ### Helper lemmas for the game-level operations -/

theorem getD_append_length {α : Type} (l : List α) (a d : α) :
    (l ++ [a]).getD l.length d = a := by
  induction l with
  | nil => rfl
  | cons hd tl ih => exact ih

theorem getD_append_lt {α : Type} (l l2 : List α) (j : Nat) (d : α)
    (h : j < l.length) : (l ++ l2).getD j d = l.getD j d := by
  induction l generalizing j with
  | nil => simp at h
  | cons hd tl ih =>
    cases j with
    | zero => rfl
    | succ k => simpa using ih k (by simpa using h)

theorem makeMoveIP_none_eq {b : Grid} {m : Move}
    (h : (makeMoveIP b m).2 = none) : (makeMoveIP b m).1 = makeMoveU b m := by
  unfold makeMoveIP at h ⊢
  dsimp only at h ⊢
  split_ifs at h ⊢
  all_goals simp_all

theorem makeMoveE_ok {b b2 : Grid} {m : Move}
    (h : makeMoveE b m = Except.ok b2) : b2 = makeMoveU b m := by
  unfold makeMoveE at h
  split at h
  · exact absurd h (by simp)
  · rename_i bp hIP
    injection h with h2
    have h3 := makeMoveIP_none_eq (b := b) (m := m) (by rw [hIP])
    rw [hIP] at h3
    rw [← h2]
    exact h3

theorem foldlM_makeMoveE_ok :
    ∀ (legs : List Move) (b b2 : Grid),
      legs.foldlM makeMoveE b = Except.ok b2 → b2 = legs.foldl makeMoveU b := by
  intro legs
  induction legs with
  | nil =>
    intro b b2 h
    have h2 : Except.ok b = Except.ok b2 := h
    injection h2 with h3
    exact h3.symm
  | cons m rest ih =>
    intro b b2 h
    rw [List.foldlM_cons] at h
    cases hm : makeMoveE b m with
    | error e =>
      rw [hm] at h
      exact Except.noConfusion h
    | ok b1 =>
      rw [hm] at h
      rw [List.foldl_cons, ← makeMoveE_ok hm]
      exact ih b1 b2 h

theorem otherPlayer_none_ok {s : GameState} {p : Nat}
    (h : otherPlayer s none = Except.ok p) : p = otherPure s.current_player := by
  unfold otherPlayer at h
  unfold otherPure
  dsimp only at h
  split_ifs at h <;> simp_all

/-- Whenever the in-place `make_move` path succeeds, it produces exactly the
pure successor used by the search agents. -/
theorem gameMakeMove_ok_eq_succState {s : GameState} {legs : List Move}
    {sN : GameState} (h : gameMakeMove s legs = Except.ok sN) :
    sN = succState s legs := by
  unfold gameMakeMove at h
  cases hfold : legs.foldlM makeMoveE s.board with
  | error e =>
    rw [hfold] at h
    exact Except.noConfusion h
  | ok b2 =>
    rw [hfold] at h
    cases hop : otherPlayer s none with
    | error e =>
      rw [hop] at h
      exact Except.noConfusion h
    | ok p =>
      rw [hop] at h
      have h2 : Except.ok (GameState.mk b2 p) = Except.ok sN := h
      injection h2 with h3
      have hb := foldlM_makeMoveE_ok legs s.board b2 hfold
      have hp := otherPlayer_none_ok hop
      rw [← h3]
      unfold succState applyTurn
      rw [hb, hp]

/-! ### Claim theorems -/

/-- Claim C10: calling `CheckersGame.make_move` with an empty sequence of
legs modifies no board cell, yet still flips the current player to the
opponent; the malformed empty turn is neither rejected with an error nor a
no-op. -/
theorem claim_C10_empty_turn (s : GameState)
    (h : s.current_player = 1 ∨ s.current_player = 2) :
    gameMakeMove s [] = Except.ok
      { board := s.board,
        current_player := if s.current_player = 1 then 2 else 1 } := by
  have hop : otherPlayer s none
      = Except.ok (if s.current_player = 1 then 2 else 1) := by
    rcases h with h | h <;> simp [otherPlayer, h]
  unfold gameMakeMove
  rw [hop]
  rfl

theorem claim_C10_witness :
    gameMakeMove { board := [[0, 1], [0, 0]], current_player := 1 } []
      = Except.ok { board := [[0, 1], [0, 0]], current_player := 2 } := by
  have h := claim_C10_empty_turn
    { board := [[0, 1], [0, 0]], current_player := 1 } (Or.inl rfl)
  simpa using h

/-- Claim C9, counterexample: `other_player(0)` does not raise — Python's
falsiness treats the argument `0` like "no argument" and returns the
opponent of the current player. -/
theorem claim_C9_counterexample :
    ¬ SpecOtherPlayerClaim { board := [[0]], current_player := 1 } := by
  intro h
  have h0 := h 0 (by decide) (by decide)
  simp [otherPlayer] at h0

/-- Claim C9, amended: `other_player` maps 1 to 2 and 2 to 1, treats both a
missing argument and the argument `0` as "use the current player", and
raises `InvalidPlayerId` only for supplied ids other than 0, 1 and 2. -/
theorem claim_C9_amended (s : GameState) :
    otherPlayer s (some 1) = Except.ok 2 ∧
    otherPlayer s (some 2) = Except.ok 1 ∧
    (s.current_player = 1 →
      otherPlayer s none = Except.ok 2 ∧
      otherPlayer s (some 0) = Except.ok 2) ∧
    (s.current_player = 2 →
      otherPlayer s none = Except.ok 1 ∧
      otherPlayer s (some 0) = Except.ok 1) ∧
    (∀ n : Nat, n ≠ 0 → n ≠ 1 → n ≠ 2 →
      otherPlayer s (some n) = Except.error CheckersErr.invalidPlayerId) := by
  refine ⟨by simp [otherPlayer], by simp [otherPlayer], ?_, ?_, ?_⟩
  · intro h
    constructor <;> simp [otherPlayer, h]
  · intro h
    constructor <;> simp [otherPlayer, h]
  · intro n h0 h1 h2
    simp [otherPlayer, h0, h1, h2]

theorem claim_C9_witness :
    otherPlayer { board := [[0]], current_player := 1 } (some 3)
        = Except.error CheckersErr.invalidPlayerId ∧
    otherPlayer { board := [[0]], current_player := 1 } none = Except.ok 2 :=
  ⟨(claim_C9_amended { board := [[0]], current_player := 1 }).2.2.2.2 3
      (by decide) (by decide) (by decide),
   ((claim_C9_amended { board := [[0]], current_player := 1 }).2.2.1 rfl).1⟩

/-- Claim C5, counterexample: a jump over one's *own* piece is not rejected
— the source asserts only that the intervening cell is non-empty, not that
it holds an opponent piece, so the move executes and removes the mover's own
piece. -/
theorem claim_C5_counterexample :
    ¬ SpecMoveErrorClaim [[1, 0, 0, 0], [0, 1, 0, 0], [0, 0, 0, 0], [0, 0, 0, 0]]
      ((0, 0), (2, 2)) := by
  unfold SpecMoveErrorClaim
  decide

/-- Claim C5, amended: `make_move` reports an `InvalidMoveError` exactly when
a jump leg's intervening cell is *empty* or the destination cell is
non-empty (the source does not check that the jumped piece is an opponent's),
and on every error path the grid is returned entirely unchanged, all
validation happening before any write. -/
theorem claim_C5_amended (b : Grid) (m : Move) :
    ((makeMoveIP b m).2.isSome = true ↔
      (((m.1.1 - m.2.1).natAbs = 2
        ∧ getCell b ((m.1.1 + m.2.1) / 2) ((m.1.2 + m.2.2) / 2) = 0)
       ∨ getCell b m.2.1 m.2.2 ≠ 0)) ∧
    ((makeMoveIP b m).2.isSome = true → (makeMoveIP b m).1 = b) := by
  unfold makeMoveIP
  dsimp only
  split_ifs with h1 h2 <;> simp_all

theorem claim_C5_witness :
    (makeMoveIP [[1, 0, 0, 0], [0, 0, 0, 0], [0, 0, 2, 0], [0, 0, 0, 0]]
        ((0, 0), (2, 2))).2.isSome = true ∧
    (makeMoveIP [[1, 0, 0, 0], [0, 0, 0, 0], [0, 0, 2, 0], [0, 0, 0, 0]]
        ((0, 0), (2, 2))).1
      = [[1, 0, 0, 0], [0, 0, 0, 0], [0, 0, 2, 0], [0, 0, 0, 0]] := by
  have h := claim_C5_amended
    [[1, 0, 0, 0], [0, 0, 0, 0], [0, 0, 2, 0], [0, 0, 0, 0]] ((0, 0), (2, 2))
  exact ⟨h.1.mpr (by decide), h.2 (h.1.mpr (by decide))⟩

theorem backpropogate_getD (path : List MCNode) (result : Nat) :
    ∀ i, i < path.length →
      ((backpropogate path result).getD i ⟨0, 0, 0⟩).visits
          = (path.getD i ⟨0, 0, 0⟩).visits + 1 ∧
      ((backpropogate path result).getD i ⟨0, 0, 0⟩).wins
          = (path.getD i ⟨0, 0, 0⟩).wins + result ∧
      ((backpropogate path result).getD i ⟨0, 0, 0⟩).current_player
          = (path.getD i ⟨0, 0, 0⟩).current_player := by
  induction path with
  | nil =>
    intro i hi
    simp at hi
  | cons n rest ih =>
    intro i hi
    cases i with
    | zero => exact ⟨rfl, rfl, rfl⟩
    | succ k =>
      have := ih k (by simpa using hi)
      simpa [backpropogate, List.getD_cons_succ] using this

/-- Claim C3, counterexample: backpropagation does *not* credit each node
from its own perspective — a path whose leaf has current player 2 still
gets a win credit when the root player 1 wins. -/
theorem claim_C3_counterexample :
    ¬ PerspectiveCredit [⟨2, 0, 0⟩] 1 1 := by
  unfold PerspectiveCredit
  decide

/-- Claim C3, amended: each `run_MCTS` trial increments the visit count of
every node on the path from the simulated node to the root, and increments
every such node's win credit by the *same* amount: 1 exactly when the
simulation winner equals the current player of the root state passed to
`run_MCTS` (a fixed perspective, not each node's own). -/
theorem claim_C3_amended (path : List MCNode) (rootPlayer winner : Nat)
    (i : Nat) (hi : i < path.length) :
    ((trialBackprop rootPlayer winner path).getD i ⟨0, 0, 0⟩).visits
        = (path.getD i ⟨0, 0, 0⟩).visits + 1 ∧
    ((trialBackprop rootPlayer winner path).getD i ⟨0, 0, 0⟩).wins
        = (path.getD i ⟨0, 0, 0⟩).wins
          + (if winner = rootPlayer then 1 else 0) ∧
    ((trialBackprop rootPlayer winner path).getD i ⟨0, 0, 0⟩).current_player
        = (path.getD i ⟨0, 0, 0⟩).current_player := by
  have h := backpropogate_getD path (if winner = rootPlayer then 1 else 0) i hi
  unfold trialBackprop
  exact h

theorem claim_C3_witness :
    ((trialBackprop 1 1 [⟨2, 0, 0⟩, ⟨1, 5, 7⟩]).getD 0 ⟨0, 0, 0⟩).wins = 1 := by
  have h := claim_C3_amended [⟨2, 0, 0⟩, ⟨1, 5, 7⟩] 1 1 0 (by decide)
  simpa using h.2.1

/-- Claim C4, counterexample: a state where both sides have pieces and the
player to move (player 1) has legal moves is declared terminal by the code,
because the code also checks the legal moves of the player *not* to move —
here player 2's lone man in the top-left corner is stalemated, so
`get_winner` returns 1 even though, per the claim, the state is
non-terminal. -/
theorem claim_C4_counterexample :
    ¬ SpecTerminalClaim
      { board := [[2, 0, 0, 0], [0, 1, 0, 0], [0, 0, 0, 0], [0, 0, 0, 0]],
        current_player := 1 } := by
  unfold SpecTerminalClaim
  decide

/-- Claim C4, amended: the game is over iff some side has no pieces of its
kind or has zero legal moves — evaluated for both players regardless of
whose turn it is, with player 1's condition checked first; the winner is
the opponent of the first side found eliminated or stalemated, and `None`
is returned only when neither condition holds. -/
theorem claim_C4_amended (s : GameState) :
    (isGameOver s = true ↔
      ((¬(hasPiece s.board 1 = true ∨ hasPiece s.board 3 = true)
        ∨ getLegalMoves s (some 1) = [])
       ∨ (¬(hasPiece s.board 2 = true ∨ hasPiece s.board 4 = true)
        ∨ getLegalMoves s (some 2) = []))) ∧
    ((¬(hasPiece s.board 1 = true ∨ hasPiece s.board 3 = true)
        ∨ getLegalMoves s (some 1) = []) →
      getWinner s = some 2) ∧
    (¬(¬(hasPiece s.board 1 = true ∨ hasPiece s.board 3 = true)
        ∨ getLegalMoves s (some 1) = []) →
      (¬(hasPiece s.board 2 = true ∨ hasPiece s.board 4 = true)
        ∨ getLegalMoves s (some 2) = []) →
      getWinner s = some 1) ∧
    (¬(¬(hasPiece s.board 1 = true ∨ hasPiece s.board 3 = true)
        ∨ getLegalMoves s (some 1) = []) →
      ¬(¬(hasPiece s.board 2 = true ∨ hasPiece s.board 4 = true)
        ∨ getLegalMoves s (some 2) = []) →
      getWinner s = none) := by
  by_cases h1 : ¬(hasPiece s.board 1 = true ∨ hasPiece s.board 3 = true)
      ∨ getLegalMoves s (some 1) = []
  · have hw : getWinner s = some 2 := by
      unfold getWinner
      rw [if_pos h1]
    have hov : isGameOver s = true := by
      unfold isGameOver
      rw [hw]
      rfl
    exact ⟨iff_of_true hov (Or.inl h1), fun _ => hw,
      fun hn1 _ => absurd h1 hn1, fun hn1 _ => absurd h1 hn1⟩
  · by_cases h2 : ¬(hasPiece s.board 2 = true ∨ hasPiece s.board 4 = true)
        ∨ getLegalMoves s (some 2) = []
    · have hw : getWinner s = some 1 := by
        unfold getWinner
        rw [if_neg h1, if_pos h2]
      have hov : isGameOver s = true := by
        unfold isGameOver
        rw [hw]
        rfl
      exact ⟨iff_of_true hov (Or.inr h2), fun hc => absurd hc h1,
        fun _ _ => hw, fun _ hn2 => absurd h2 hn2⟩
    · have hw : getWinner s = none := by
        unfold getWinner
        rw [if_neg h1, if_neg h2]
      have hov : ¬(isGameOver s = true) := by
        unfold isGameOver
        rw [hw]
        simp
      exact ⟨iff_of_false hov (not_or_intro h1 h2), fun hc => absurd hc h1,
        fun _ hc => absurd hc h2, fun _ _ => hw⟩

theorem claim_C4_witness :
    getWinner
      { board := [[2, 0, 0, 0], [0, 1, 0, 0], [0, 0, 0, 0], [0, 0, 0, 0]],
        current_player := 1 } = some 1 :=
  (claim_C4_amended
    { board := [[2, 0, 0, 0], [0, 1, 0, 0], [0, 0, 0, 0], [0, 0, 0, 0]],
      current_player := 1 }).2.2.1 (by decide) (by decide)

/-- Claim C7: `generate_successor` never mutates its source: in the explicit
board store, every board present before the call (in particular the source
state's board) is unchanged, and the returned state's board is a freshly
allocated copy at a new index, sharing no storage with the source; its
contents are the source board's contents with the turn (if a non-empty one
was given) applied. -/
theorem claim_C7_no_mutation (store : List Grid) (s : HeapGame)
    (mv : Option Turn) (h : s.boardIdx < store.length) :
    (∀ j, j < store.length →
      ((hGenSuccessor store s mv).1).getD j [] = store.getD j []) ∧
    ((hGenSuccessor store s mv).2).boardIdx ≠ s.boardIdx ∧
    ((hGenSuccessor store s mv).2).boardIdx
      < ((hGenSuccessor store s mv).1).length ∧
    ((hGenSuccessor store s mv).1).getD
        ((hGenSuccessor store s mv).2).boardIdx []
      = (if mv = none ∨ mv = some [] then store.getD s.boardIdx []
         else applyTurn (store.getD s.boardIdx []) (mv.getD [])) := by
  unfold hGenSuccessor
  by_cases hmv : mv = none ∨ mv = some []
  · rw [if_pos hmv, if_pos hmv]
    dsimp only
    refine ⟨?_, by omega, by simp, ?_⟩
    · intro j hj
      exact getD_append_lt _ _ _ _ hj
    · exact getD_append_length _ _ _
  · rw [if_neg hmv, if_neg hmv]
    dsimp only
    have hlen : (store ++ [store.getD s.boardIdx []]).length
        = store.length + 1 := by simp
    refine ⟨?_, by omega, by simp, ?_⟩
    · intro j hj
      rw [getD_set_ne _ _ _ _ _ (by omega)]
      exact getD_append_lt _ _ _ _ hj
    · rw [getD_set_self _ _ _ _ (by omega)]
      rw [getD_append_length]

theorem claim_C7_witness :
    (hGenSuccessor [[[1, 0], [0, 0]]] { boardIdx := 0, current_player := 1 }
        none).1.getD 0 [] = [[1, 0], [0, 0]] ∧
    (hGenSuccessor [[[1, 0], [0, 0]]] { boardIdx := 0, current_player := 1 }
        none).2.boardIdx ≠ 0 := by
  have h := claim_C7_no_mutation [[[1, 0], [0, 0]]]
    { boardIdx := 0, current_player := 1 } none (by decide)
  exact ⟨h.1 0 (by decide), h.2.1⟩

/-- Claim C8: within a single `make_move` application, a player-1 man
landing on row `N-1` is replaced by a player-1 king (code 3), a player-2
man landing on row 0 is replaced by a player-2 king (code 4), and a piece
that is already a king lands unchanged — the promotion rule never touches
it again. -/
theorem claim_C8_promotion (b : Grid) (x y nx ny : Int)
    (hsq : IsSquare b) (hx : 0 ≤ x) (hy : 0 ≤ y)
    (hnx : 0 ≤ nx ∧ nx < (dimG b : Int))
    (hny : 0 ≤ ny ∧ ny < (dimG b : Int)) :
    (getCell b x y = 1 → ny = (dimG b : Int) - 1 →
      getCell (makeMoveU b ((x, y), (nx, ny))) nx ny = 3) ∧
    (getCell b x y = 2 → ny = 0 →
      getCell (makeMoveU b ((x, y), (nx, ny))) nx ny = 4) ∧
    ((getCell b x y = 3 ∨ getCell b x y = 4) →
      getCell (makeMoveU b ((x, y), (nx, ny))) nx ny = getCell b x y) := by
  have h := getCell_makeMoveU_dest hsq hx hy hnx hny
  refine ⟨?_, ?_, ?_⟩
  · intro h1 h2
    rw [h, if_pos ⟨h1, h2⟩]
  · intro h1 h2
    rw [h, if_neg (by omega), if_pos ⟨h1, h2⟩]
  · intro h1
    rw [h, if_neg (by omega), if_neg (by omega)]

theorem claim_C8_witness :
    getCell (makeMoveU [[0, 0, 0, 0], [0, 0, 0, 0], [0, 0, 1, 0], [0, 0, 0, 0]]
      ((2, 2), (3, 3))) 3 3 = 3 :=
  (claim_C8_promotion [[0, 0, 0, 0], [0, 0, 0, 0], [0, 0, 1, 0], [0, 0, 0, 0]]
    2 2 3 3 (by decide) (by decide) (by decide) (by decide) (by decide)).1
    (by decide) (by decide)

/-- Claim C2: every Turn produced by `get_jump_moves` from `(x, y)` is a
chained sequence of jump legs — each leg starts where the previous one
ended, moves two cells diagonally to an in-bounds empty destination, and
jumps over a cell holding an enemy piece on the board as modified by the
preceding legs — and is maximal: after applying all legs no further jump is
available from the final landing square; conversely every such maximal
chain appears in the result. -/
theorem claim_C2_jump_chains (b : Grid) (x y : Int) (t : Turn)
    (hsq : IsSquare b) (hx1 : 0 ≤ x) (hx2 : x < (dimG b : Int))
    (hy1 : 0 ≤ y) (hy2 : y < (dimG b : Int)) :
    t ∈ getJumpMoves b x y ↔
      (t ≠ [] ∧ ChainFrom b x y t ∧
       ¬canJump (applyTurn b t) (turnEnd (x, y) t).1 (turnEnd (x, y) t).2) :=
  getJumpMovesF_char (countPieces b) b x y t hsq rfl hx1 hx2 hy1 hy2

theorem claim_C2_witness :
    [((0, 0), (2, 2)), ((2, 2), (4, 4))] ∈ getJumpMoves
      [[1, 0, 0, 0, 0, 0],
       [0, 2, 0, 2, 0, 0],
       [0, 0, 0, 0, 0, 0],
       [0, 2, 0, 2, 0, 0],
       [0, 0, 0, 0, 0, 0],
       [0, 0, 0, 0, 0, 0]] 0 0 :=
  (claim_C2_jump_chains
    [[1, 0, 0, 0, 0, 0],
     [0, 2, 0, 2, 0, 0],
     [0, 0, 0, 0, 0, 0],
     [0, 2, 0, 2, 0, 0],
     [0, 0, 0, 0, 0, 0],
     [0, 0, 0, 0, 0, 0]] 0 0 [((0, 0), (2, 2)), ((2, 2), (4, 4))]
    (by decide) (by decide) (by decide) (by decide) (by decide)).mpr (by decide)

/-! ### Helper lemmas for `get_legal_moves` (claim C1) -/

theorem singleDirs_spec {d : Int × Int} (h : d ∈ singleDirs) :
    (d.1 = 1 ∨ d.1 = -1) ∧ (d.2 = 1 ∨ d.2 = -1) := by
  simp [singleDirs] at h
  rcases h with h | h | h | h <;> simp [h]

/-- Every turn generated by jump discovery consists solely of `±2` diagonal
legs. -/
theorem mem_getJumpMovesF_shape :
    ∀ (fuel : Nat) (b : Grid) (x y : Int) (t : Turn),
      t ∈ getJumpMovesF fuel b x y → IsJumpTurn t := by
  intro fuel
  induction fuel with
  | zero =>
    intro b x y t ht
    simp [getJumpMovesF] at ht
  | succ n ih =>
    intro b x y t ht
    have ht2 : t ∈ jumpBody (getJumpMovesF n) b x y := ht
    unfold jumpBody at ht2
    by_cases hp : getCell b x y = 0
    · rw [if_pos hp] at ht2
      simp at ht2
    · rw [if_neg hp] at ht2
      rw [List.mem_flatMap] at ht2
      obtain ⟨d, hd, hmem⟩ := ht2
      rw [mem_jumpStep_iff hd] at hmem
      obtain ⟨-, hcase⟩ := hmem
      have hd2 := jumpDirs_spec hd
      rcases hcase with ⟨-, ht3⟩ | ⟨s, hs, ht3⟩
      · subst ht3
        refine ⟨by simp, ?_⟩
        intro m hm
        rw [List.mem_singleton] at hm
        subst hm
        constructor <;> simp <;> omega
      · subst ht3
        obtain ⟨-, hall⟩ := ih _ _ _ s hs
        refine ⟨by simp, ?_⟩
        intro m hm
        rcases List.mem_cons.1 hm with hm | hm
        · subst hm
          constructor <;> simp <;> omega
        · exact hall m hm

/-- Every turn generated by `get_single_moves` is a single `±1` step. -/
theorem mem_getSingleMoves_shape {b : Grid} {x y : Int} {t : Turn}
    (ht : t ∈ getSingleMoves b x y) : IsSingleStepTurn t := by
  unfold getSingleMoves at ht
  rw [List.mem_flatMap] at ht
  obtain ⟨d, hd, hmem⟩ := ht
  have hd2 := singleDirs_spec hd
  split_ifs at hmem <;> simp at hmem
  subst hmem
  exact ⟨((x, y), (x + d.1, y + d.2)), rfl, by simp; omega, by simp; omega⟩

theorem isJumpTurn_not_single {t : Turn} (h : IsJumpTurn t) :
    ¬ IsSingleStepTurn t := by
  rintro ⟨m, rfl, h1, h2⟩
  obtain ⟨-, hall⟩ := h
  have := hall m (List.mem_singleton.2 rfl)
  omega

/-- The jump turns accumulated by the `get_legal_moves` scan all come from
`get_jump_moves` of some cell. -/
theorem legalFold_jumps_sub (b : Grid) (p : Nat) :
    ∀ (cs : List (Nat × Nat)) (acc : List Turn × List Turn) (t : Turn),
      t ∈ (cs.foldl (legalStep b p) acc).1 →
      t ∈ acc.1 ∨ ∃ q : Nat × Nat, t ∈ getJumpMoves b (q.1 : Int) (q.2 : Int) := by
  intro cs
  induction cs with
  | nil =>
    intro acc t ht
    exact Or.inl ht
  | cons c cs ih =>
    intro acc t ht
    rw [List.foldl_cons] at ht
    rcases ih _ t ht with hmem | hmem
    · unfold legalStep at hmem
      split_ifs at hmem with hc
      · dsimp only at hmem
        rcases List.mem_append.1 hmem with hmem | hmem
        · exact Or.inl hmem
        · exact Or.inr ⟨c, hmem⟩
      · exact Or.inl hmem
    · exact Or.inr hmem

/-- The single-step turns accumulated by the scan all come from
`get_single_moves` of some cell. -/
theorem legalFold_singles_sub (b : Grid) (p : Nat) :
    ∀ (cs : List (Nat × Nat)) (acc : List Turn × List Turn) (t : Turn),
      t ∈ (cs.foldl (legalStep b p) acc).2 →
      t ∈ acc.2
        ∨ ∃ q : Nat × Nat, t ∈ getSingleMoves b (q.1 : Int) (q.2 : Int) := by
  intro cs
  induction cs with
  | nil =>
    intro acc t ht
    exact Or.inl ht
  | cons c cs ih =>
    intro acc t ht
    rw [List.foldl_cons] at ht
    rcases ih _ t ht with hmem | hmem
    · unfold legalStep at hmem
      split_ifs at hmem with hc
      · dsimp only at hmem
        split_ifs at hmem
        · rcases List.mem_append.1 hmem with hmem | hmem
          · exact Or.inl hmem
          · exact Or.inr ⟨c, hmem⟩
        · exact Or.inl hmem
      · exact Or.inl hmem
    · exact Or.inr hmem

/-- The accumulated jump list is empty exactly when no scanned cell owned by
the player has a jump. -/
theorem legalFold_jumps_nil_iff (b : Grid) (p : Nat) :
    ∀ (cs : List (Nat × Nat)) (acc : List Turn × List Turn),
      (cs.foldl (legalStep b p) acc).1 = [] ↔
        (acc.1 = [] ∧ ∀ c ∈ cs,
          (getCell b (c.1 : Int) (c.2 : Int) = p
           ∨ getCell b (c.1 : Int) (c.2 : Int) = p + 2) →
          getJumpMoves b (c.1 : Int) (c.2 : Int) = []) := by
  intro cs
  induction cs with
  | nil =>
    intro acc
    simp
  | cons c cs ih =>
    intro acc
    rw [List.foldl_cons, ih]
    unfold legalStep
    by_cases hc : getCell b (c.1 : Int) (c.2 : Int) = p
        ∨ getCell b (c.1 : Int) (c.2 : Int) = p + 2
    · rw [if_pos hc]
      dsimp only
      rw [List.append_eq_nil]
      constructor
      · rintro ⟨⟨h1, h2⟩, h3⟩
        refine ⟨h1, ?_⟩
        intro q hq
        rcases List.mem_cons.1 hq with hq | hq
        · subst hq
          intro _
          exact h2
        · exact h3 q hq
      · rintro ⟨h1, h2⟩
        exact ⟨⟨h1, h2 c (List.mem_cons_self c cs) hc⟩,
          fun q hq => h2 q (List.mem_cons_of_mem c hq)⟩
    · rw [if_neg hc]
      constructor
      · rintro ⟨h1, h3⟩
        refine ⟨h1, ?_⟩
        intro q hq
        rcases List.mem_cons.1 hq with hq | hq
        · subst hq
          intro hcon
          exact absurd hcon hc
        · exact h3 q hq
      · rintro ⟨h1, h2⟩
        exact ⟨h1, fun q hq => h2 q (List.mem_cons_of_mem c hq)⟩

/-- Claim C1: for every game state and resolved player (the ids 1 and 2 of
the data model), the list returned by `get_legal_moves` contains either
only jump turns or only single-step turns, never a mix; and when any jump
is available to that player anywhere on the board, the returned list
consists solely of jump turns and contains no single-step turn. -/
theorem claim_C1_forced_capture (s : GameState) (player : Option Nat)
    (_hp : resolvePlayer s player = 1 ∨ resolvePlayer s player = 2) :
    ((∀ t ∈ getLegalMoves s player, IsJumpTurn t)
      ∨ (∀ t ∈ getLegalMoves s player, IsSingleStepTurn t)) ∧
    (JumpAvailable s.board (resolvePlayer s player) →
      ∀ t ∈ getLegalMoves s player, IsJumpTurn t ∧ ¬ IsSingleStepTurn t) := by
  have hEq : getLegalMoves s player =
      (if ((allCoords (dimG s.board)).foldl
          (legalStep s.board (resolvePlayer s player)) ([], [])).1 = []
       then ((allCoords (dimG s.board)).foldl
          (legalStep s.board (resolvePlayer s player)) ([], [])).2
       else ((allCoords (dimG s.board)).foldl
          (legalStep s.board (resolvePlayer s player)) ([], [])).1) := rfl
  by_cases hr : ((allCoords (dimG s.board)).foldl
      (legalStep s.board (resolvePlayer s player)) ([], [])).1 = []
  · rw [hEq, if_pos hr]
    constructor
    · refine Or.inr ?_
      intro t ht
      rcases legalFold_singles_sub s.board (resolvePlayer s player)
        (allCoords (dimG s.board)) ([], []) t ht with hmem | ⟨q, hq⟩
      · simp at hmem
      · exact mem_getSingleMoves_shape hq
    · intro hja
      exfalso
      obtain ⟨c, hc, howned, hne⟩ := hja
      have := ((legalFold_jumps_nil_iff s.board (resolvePlayer s player)
        (allCoords (dimG s.board)) ([], [])).1 hr).2 c hc howned
      exact hne this
  · rw [hEq, if_neg hr]
    have hjumps : ∀ t ∈ ((allCoords (dimG s.board)).foldl
        (legalStep s.board (resolvePlayer s player)) ([], [])).1,
        IsJumpTurn t := by
      intro t ht
      rcases legalFold_jumps_sub s.board (resolvePlayer s player)
        (allCoords (dimG s.board)) ([], []) t ht with hmem | ⟨q, hq⟩
      · simp at hmem
      · exact mem_getJumpMovesF_shape _ _ _ _ _ hq
    exact ⟨Or.inl hjumps,
      fun _ t ht => ⟨hjumps t ht, isJumpTurn_not_single (hjumps t ht)⟩⟩

theorem claim_C1_witness :
    (∀ t ∈ getLegalMoves
        { board := [[0, 0, 0, 0], [0, 1, 0, 0], [0, 0, 2, 0], [0, 0, 0, 0]],
          current_player := 1 } none, IsJumpTurn t ∧ ¬ IsSingleStepTurn t) ∧
    getLegalMoves
        { board := [[0, 0, 0, 0], [0, 1, 0, 0], [0, 0, 2, 0], [0, 0, 0, 0]],
          current_player := 1 } none = [[((1, 1), (3, 3))]] :=
  ⟨(claim_C1_forced_capture
      { board := [[0, 0, 0, 0], [0, 1, 0, 0], [0, 0, 2, 0], [0, 0, 0, 0]],
        current_player := 1 } none (Or.inl rfl)).2
    (by decide), by decide⟩

/-! ### Helper lemmas for the alpha-beta agreement (claim C6) -/

theorem valLeTop (v : Val) : v ≤ topV := by
  induction v using WithBot.recBotCoe with
  | bot => exact bot_le
  | coe a => exact WithBot.coe_le_coe.2 le_top

theorem max_eq_topV {v w : Val} (hv : ¬ topV ≤ v) (h : max v w = topV) :
    w = topV := by
  rcases max_choice v w with hc | hc
  · exact absurd (le_of_eq (hc.symm.trans h).symm) hv
  · exact hc.symm.trans h

theorem foldlMax_le_init :
    ∀ (l : List (Turn × Val)) (v0 : Val),
      v0 ≤ List.foldl (fun acc p => max acc p.2) v0 l := by
  intro l
  induction l with
  | nil => intro v0; exact le_refl v0
  | cons p rest ih =>
    intro v0
    exact le_trans (le_max_left v0 p.2) (ih (max v0 p.2))

theorem foldlMax_mem_le :
    ∀ (l : List (Turn × Val)) (v0 : Val) (p : Turn × Val), p ∈ l →
      p.2 ≤ List.foldl (fun acc q => max acc q.2) v0 l := by
  intro l
  induction l with
  | nil =>
    intro v0 p hp
    simp at hp
  | cons q rest ih =>
    intro v0 p hp
    rcases List.mem_cons.1 hp with hp | hp
    · subst hp
      exact le_trans (le_max_right v0 p.2) (foldlMax_le_init rest (max v0 p.2))
    · exact ih (max v0 q.2) p hp

theorem foldlMax_top (l : List (Turn × Val)) :
    List.foldl (fun acc p => max acc p.2) topV l = topV := by
  induction l with
  | nil => rfl
  | cons p rest ih =>
    rw [List.foldl_cons, max_eq_left (valLeTop p.2)]
    exact ih

theorem runPairs_append :
    ∀ (l : List (Turn × Val)) (v0 : Val) (p : Turn × Val),
      runPairs v0 (l ++ [p]) = runPairs v0 l
        ++ [(p.1, max (List.foldl (fun acc q => max acc q.2) v0 l) p.2)] := by
  intro l
  induction l with
  | nil =>
    intro v0 p
    rfl
  | cons q rest ih =>
    intro v0 p
    obtain ⟨a, w⟩ := q
    show (a, max v0 w) :: runPairs (max v0 w) (rest ++ [p]) = _
    rw [ih (max v0 w) p]
    rfl

theorem runPairs_entries_le :
    ∀ (l : List (Turn × Val)) (v0 : Val) (p : Turn × Val),
      p ∈ runPairs v0 l →
      p.2 ≤ List.foldl (fun acc q => max acc q.2) v0 l := by
  intro l
  induction l with
  | nil =>
    intro v0 p hp
    simp [runPairs] at hp
  | cons q rest ih =>
    intro v0 p hp
    obtain ⟨a, w⟩ := q
    rcases List.mem_cons.1 hp with hp | hp
    · subst hp
      exact foldlMax_le_init rest (max v0 w)
    · exact ih (max v0 w) p hp

theorem firstEq_cons_self (a : Turn) (v : Val) (l : List (Turn × Val)) :
    firstEq ((a, v) :: l) v = some a := by
  unfold firstEq
  rw [List.find?_cons_of_pos _ (by simp)]
  rfl

theorem firstEq_cons_ne {w v : Val} (a : Turn) (l : List (Turn × Val))
    (h : w ≠ v) : firstEq ((a, w) :: l) v = firstEq l v := by
  unfold firstEq
  rw [List.find?_cons_of_neg _ (by simp [h])]

theorem firstEq_append_skip :
    ∀ (l1 l2 : List (Turn × Val)) (v : Val),
      (∀ p ∈ l1, p.2 ≠ v) → firstEq (l1 ++ l2) v = firstEq l2 v := by
  intro l1
  induction l1 with
  | nil =>
    intro l2 v _
    rfl
  | cons p rest ih =>
    intro l2 v h
    obtain ⟨a, w⟩ := p
    rw [List.cons_append,
      firstEq_cons_ne a _ (h (a, w) (List.mem_cons_self _ _))]
    exact ih l2 v (fun q hq => h q (List.mem_cons_of_mem _ hq))

theorem firstEq_runPairs :
    ∀ (l : List (Turn × Val)) (v0 V : Val),
      v0 ≤ V → (V ≤ v0 → v0 = botV) → (∀ p ∈ l, p.2 ≤ V) →
      firstEq (runPairs v0 l) V = firstEq l V := by
  intro l
  induction l with
  | nil =>
    intro v0 V _ _ _
    rfl
  | cons p rest ih =>
    intro v0 V hv0 hbot hub
    obtain ⟨a, w⟩ := p
    show firstEq ((a, max v0 w) :: runPairs (max v0 w) rest) V = _
    by_cases hw : w = V
    · have hmax : max v0 w = V := by
        rw [hw]
        exact max_eq_right hv0
      rw [hmax, firstEq_cons_self, hw, firstEq_cons_self]
    · have hwlt : w < V :=
        lt_of_le_of_ne (hub (a, w) (List.mem_cons_self _ _)) hw
      by_cases hv0eq : V ≤ v0
      · exfalso
        have hb := hbot hv0eq
        rw [hb] at hv0eq
        have : V = botV := le_bot_iff.1 hv0eq
        rw [this] at hwlt
        exact absurd hwlt (by simp [botV])
      · have hlt : max v0 w < V := max_lt (lt_of_not_le hv0eq) hwlt
        rw [firstEq_cons_ne a _ (ne_of_lt hlt), firstEq_cons_ne a _ hw]
        exact ih (max v0 w) V (le_of_lt hlt)
          (fun hcon => absurd hcon (not_le_of_lt hlt))
          (fun q hq => hub q (List.mem_cons_of_mem _ hq))

theorem abLoopPure_spec :
    ∀ (ws done : List (Turn × Val)) (v : Val),
      v = List.foldl (fun acc p => max acc p.2) botV done →
      ¬ topV ≤ v →
      abLoopPure ws v (runPairs botV done) = firstMax (done ++ ws) := by
  intro ws
  induction ws with
  | nil =>
    intro done v hv hvtop
    show firstEq (runPairs botV done) v = _
    rw [List.append_nil]
    unfold firstMax listMaxV
    rw [← hv]
    exact firstEq_runPairs done botV v (hv ▸ foldlMax_le_init done botV)
      (fun _ => rfl) (fun p hp => hv ▸ foldlMax_mem_le done botV p hp)
  | cons p rest ih =>
    intro done v hv hvtop
    obtain ⟨a, w⟩ := p
    show (if topV ≤ max v w then
        firstEq (runPairs botV done ++ [(a, max v w)]) (max v w)
      else abLoopPure rest (max v w) (runPairs botV done ++ [(a, max v w)]))
      = _
    by_cases hstop : topV ≤ max v w
    · rw [if_pos hstop]
      have hwt : w = topV := max_eq_topV hvtop (le_antisymm (valLeTop _) hstop)
      have hvn : max v w = topV := le_antisymm (valLeTop _) hstop
      have hvtop2 : v < topV :=
        lt_of_le_of_ne (valLeTop v) (fun hc => hvtop (le_of_eq hc.symm))
      -- the overall maximum is topV
      have hmaxall : listMaxV (done ++ (a, w) :: rest) = topV := by
        unfold listMaxV
        rw [List.foldl_append, List.foldl_cons, ← hv, hwt]
        dsimp only
        rw [max_eq_right (valLeTop v)]
        exact foldlMax_top rest
      have hskip1 : ∀ q ∈ runPairs botV done, q.2 ≠ topV := by
        intro q hq
        have h1 := runPairs_entries_le done botV q hq
        rw [← hv] at h1
        exact ne_of_lt (lt_of_le_of_lt h1 hvtop2)
      have hskip2 : ∀ q ∈ done, q.2 ≠ topV := by
        intro q hq
        have h1 := foldlMax_mem_le done botV q hq
        rw [← hv] at h1
        exact ne_of_lt (lt_of_le_of_lt h1 hvtop2)
      rw [hvn]
      unfold firstMax
      rw [hmaxall]
      rw [firstEq_append_skip _ _ _ hskip1,
        firstEq_append_skip _ _ _ hskip2, hwt, firstEq_cons_self,
        firstEq_cons_self]
    · rw [if_neg hstop]
      have hstep : runPairs botV done ++ [(a, max v w)]
          = runPairs botV (done ++ [(a, w)]) := by
        rw [runPairs_append done botV (a, w), ← hv]
      rw [hstep]
      have hrec := ih (done ++ [(a, w)]) (max v w)
        (by rw [List.foldl_append, ← hv]; rfl) hstop
      rw [hrec, List.append_assoc]
      rfl

theorem pyMaxGo_cons (a : Turn) (v : Val) (b : Turn) (w : Val)
    (rest : List (Turn × Val)) :
    pyMaxGo a v ((b, w) :: rest)
      = if v < w then pyMaxGo b w rest else pyMaxGo a v rest := rfl

theorem pyMaxGo_spec :
    ∀ (rest : List (Turn × Val)) (a : Turn) (v : Val),
      some (pyMaxGo a v rest) = firstEq ((a, v) :: rest)
        (List.foldl (fun acc p => max acc p.2) v rest) := by
  intro rest
  induction rest with
  | nil =>
    intro a v
    rw [List.foldl_nil, firstEq_cons_self]
    rfl
  | cons p rest ih =>
    intro a v
    obtain ⟨b, w⟩ := p
    rw [List.foldl_cons]
    dsimp only
    by_cases hvw : v < w
    · rw [pyMaxGo_cons, if_pos hvw, max_eq_right (le_of_lt hvw)]
      rw [firstEq_cons_ne a _ (ne_of_lt (lt_of_lt_of_le hvw
        (foldlMax_le_init rest w)))]
      exact ih b w
    · have hwv : w ≤ v := le_of_not_lt hvw
      rw [pyMaxGo_cons, if_neg hvw, max_eq_left hwv]
      rw [ih a v]
      by_cases hveq : v = List.foldl (fun acc p => max acc p.2) v rest
      · rw [← hveq, firstEq_cons_self, firstEq_cons_self]
      · have hvlt : v < List.foldl (fun acc p => max acc p.2) v rest :=
          lt_of_le_of_ne (foldlMax_le_init rest v) hveq
        rw [firstEq_cons_ne a _ (ne_of_lt hvlt),
          firstEq_cons_ne a _ (ne_of_lt hvlt),
          firstEq_cons_ne b _ (ne_of_lt (lt_of_le_of_lt hwv hvlt))]

theorem pyMax_eq_firstMax (l : List (Turn × Val)) : pyMax l = firstMax l := by
  cases l with
  | nil => rfl
  | cons p rest =>
    obtain ⟨a, v⟩ := p
    show some (pyMaxGo a v rest) = _
    rw [pyMaxGo_spec rest a v]
    unfold firstMax listMaxV
    rw [List.foldl_cons, show max botV v = v from max_eq_right bot_le]

theorem abRootLoop_eq_pure (g : GameState) (r : Nat) :
    ∀ (rest : List Turn) (v alphaV : Val) (stored : List (Turn × Val)),
      (∀ a ∈ rest, ∀ av bv : Val,
        abF (2 * r) r false av bv (succState g a) = mmMin (succState g a) r) →
      abRootLoop g r rest v alphaV stored
        = abLoopPure (rest.map (fun a => (a, mmMin (succState g a) r)))
            v stored := by
  intro rest
  induction rest with
  | nil =>
    intro v alphaV stored _
    rfl
  | cons a rest ih =>
    intro v alphaV stored H
    show (if topV ≤ max v (abF (2 * r) r false alphaV topV (succState g a))
        then firstEq (stored
          ++ [(a, max v (abF (2 * r) r false alphaV topV (succState g a)))])
          (max v (abF (2 * r) r false alphaV topV (succState g a)))
        else abRootLoop g r rest
          (max v (abF (2 * r) r false alphaV topV (succState g a)))
          (max alphaV
            (max v (abF (2 * r) r false alphaV topV (succState g a))))
          (stored
          ++ [(a, max v (abF (2 * r) r false alphaV topV (succState g a)))]))
      = _
    rw [H a (List.mem_cons_self _ _) alphaV topV]
    show _ = (if topV ≤ max v (mmMin (succState g a) r)
        then firstEq (stored ++ [(a, max v (mmMin (succState g a) r))])
          (max v (mmMin (succState g a) r))
        else abLoopPure (rest.map (fun b => (b, mmMin (succState g b) r)))
          (max v (mmMin (succState g a) r))
          (stored ++ [(a, max v (mmMin (succState g a) r))]))
    by_cases hstop : topV ≤ max v (mmMin (succState g a) r)
    · rw [if_pos hstop, if_pos hstop]
    · rw [if_neg hstop, if_neg hstop]
      exact ih _ _ _ (fun b hb => H b (List.mem_cons_of_mem _ hb))

/-- Claim C6, counterexample: with search depth 0 the two agents cannot
return the same Turn even though pruning changes nothing (nothing is
explored) — the alpha-beta `get_action` hits the guard of `max_value` and
returns the static evaluation, a value rather than a Turn, while the plain
minimax agent returns a Turn. -/
theorem claim_C6_counterexample :
    ¬ SpecAlphaBetaAgreeClaim
      { board := [[0, 0, 0, 0], [0, 1, 0, 0], [0, 0, 2, 0], [0, 0, 0, 0]],
        current_player := 1 } 0 := by
  intro h
  have h2 := h (by decide) (fun a ha av bv => rfl)
  exact absurd h2 (by decide)

/-- Claim C6, amended: for every game state with at least one legal move
that is not terminal, and every search depth of at least one ply, whenever
pruning does not change the values explored for the root successors (the
alpha-beta `min_value` agrees with the plain `min_value` on each root
successor for all bounds), `AlphaBetaMinimaxAgent.get_action` and
`MinimaxSearchAgent.get_action` return the same Turn; in particular both
select the first Turn, in legal-move generation order, whose computed value
equals the final maximal minimax value.  (The non-terminal and
depth-at-least-one provisos are forced: otherwise the alpha-beta root
returns a static evaluation instead of a Turn.) -/
theorem claim_C6_amended (g : GameState) (depth : Nat)
    (hd : depth ≠ 0) (hov : isGameOver g = false)
    (hmoves : getLegalMoves g none ≠ [])
    (H : ∀ a ∈ getLegalMoves g none, ∀ av bv : Val,
        abMin (succState g a) av bv depth = mmMin (succState g a) depth) :
    abGetAction g depth = Sum.inr (mmGetAction g depth) ∧
    mmGetAction g depth
      = firstMax ((getLegalMoves g none).map
          (fun a => (a, mmMin (succState g a) depth))) ∧
    (∃ t, mmGetAction g depth = some t) := by
  have hmm : mmGetAction g depth
      = firstMax ((getLegalMoves g none).map
          (fun a => (a, mmMin (succState g a) depth))) :=
    pyMax_eq_firstMax _
  have hsome : ∃ t, mmGetAction g depth = some t := by
    cases hl : getLegalMoves g none with
    | nil => exact absurd hl hmoves
    | cons a rest =>
      refine ⟨pyMaxGo a (mmMin (succState g a) depth)
        (rest.map (fun b => (b, mmMin (succState g b) depth))), ?_⟩
      unfold mmGetAction
      rw [hl]
      rfl
  refine ⟨?_, hmm, hsome⟩
  unfold abGetAction
  rw [if_neg (by simp [hov, hd])]
  rw [abRootLoop_eq_pure g depth _ _ _ _ (fun a ha av bv => H a ha av bv)]
  have hpure := abLoopPure_spec
    ((getLegalMoves g none).map (fun a => (a, mmMin (succState g a) depth)))
    [] botV rfl (by decide)
  rw [show runPairs botV [] = [] from rfl] at hpure
  rw [hpure, List.nil_append, hmm]

theorem claim_C6_witness :
    abGetAction
        { board := [[0, 0, 0, 0], [0, 1, 0, 0], [0, 0, 2, 0], [0, 0, 0, 0]],
          current_player := 1 } 1
      = Sum.inr (mmGetAction
        { board := [[0, 0, 0, 0], [0, 1, 0, 0], [0, 0, 2, 0], [0, 0, 0, 0]],
          current_player := 1 } 1) := by
  refine (claim_C6_amended
    { board := [[0, 0, 0, 0], [0, 1, 0, 0], [0, 0, 2, 0], [0, 0, 0, 0]],
      current_player := 1 } 1 (by decide) (by decide) (by decide) ?_).1
  intro a ha av bv
  have hleg : getLegalMoves
      { board := [[0, 0, 0, 0], [0, 1, 0, 0], [0, 0, 2, 0], [0, 0, 0, 0]],
        current_player := 1 } none = [[((1, 1), (3, 3))]] := by decide
  rw [hleg, List.mem_singleton] at ha
  subst ha
  have hover : isGameOver (succState
      { board := [[0, 0, 0, 0], [0, 1, 0, 0], [0, 0, 2, 0], [0, 0, 0, 0]],
        current_player := 1 } [((1, 1), (3, 3))]) = true := by decide
  show abF (1 + 1) 1 false av bv _ = mmF (1 + 1) 1 false _
  unfold abF mmF
  rw [if_pos (Or.inl hover), if_pos (Or.inl hover)]

end CheckersMCTS
